import Mathlib

/-!
Verification of the qasmsim amplitude-vector simulation engine and the
shot-aggregation logic, shallowly embedded from `src/statevector.rs` and
`src/interpreter/computation.rs`.

Rust `f64` values are modelled as real numbers, `Complex` amplitudes as `ℂ`,
`Vec<Complex>` as `List ℂ`, and machine integers (`usize`, `u64`) as `ℕ`.
The `panic!`/`assert!` failure mode of measurement collapse is modelled with
`Option`.
-/

namespace QasmSim

open scoped BigOperators

/-! ### Generic list helpers -/

lemma sum_map_range {M : Type*} [AddCommMonoid M] (f : ℕ → M) :
    ∀ n : ℕ, ((List.range n).map f).sum = ∑ i ∈ Finset.range n, f i := by
  intro n
  induction n with
  | zero => simp
  | succ n ih =>
      rw [List.range_succ, List.map_append, List.sum_append, Finset.sum_range_succ, ih]
      simp

lemma list_eq_map_range_getD {α : Type*} (l : List α) (d : α) :
    l = (List.range l.length).map (fun i => l.getD i d) := by
  apply List.ext_getElem
  · simp
  · intro n h1 h2
    simp only [List.getElem_map, List.getElem_range]
    rw [List.getD_eq_getElem l d h1]

lemma sum_eq_sum_range_getD (l : List ℝ) :
    l.sum = ∑ i ∈ Finset.range l.length, l.getD i 0 := by
  conv_lhs => rw [list_eq_map_range_getD l 0]
  exact sum_map_range _ _

lemma foldl_add_eq {α : Type*} (g : α → ℝ) :
    ∀ (l : List α) (a : ℝ), l.foldl (fun s x => s + g x) a = a + (l.map g).sum := by
  intro l
  induction l with
  | nil => simp
  | cons x xs ih => intro a; simp [ih, add_assoc]

lemma enum_map_eq_map_range {α β : Type*} (l : List α) (f : ℕ × α → β) (d : α) :
    l.enum.map f = (List.range l.length).map (fun i => f (i, l.getD i d)) := by
  apply List.ext_getElem
  · simp
  · intro n h1 h2
    simp only [List.getElem_map, List.getElem_range, List.getElem_enum]
    congr 1
    have hn : n < l.length := by simpa using h2
    simp [List.getD, List.getElem?_eq_getElem hn]

lemma sum_set (l : List ℝ) :
    ∀ (i : ℕ) (x : ℝ), i < l.length → (l.set i x).sum = l.sum - l.getD i 0 + x := by
  induction l with
  | nil => intro i x h; simp at h
  | cons y ys ih =>
      intro i x h
      cases i with
      | zero => simp [List.set]; ring
      | succ j =>
          have hj : j < ys.length := by simpa using h
          simp only [List.set, List.sum_cons, List.getD_cons_succ]
          rw [ih j x hj]
          ring

/-! ### Bit-level helpers from `statevector.rs` -/

/-- Source: `fn exp2(power: usize) -> usize { 1_usize << power }`. -/
def exp2 (power : ℕ) : ℕ := 1 <<< power

lemma exp2_eq (power : ℕ) : exp2 power = 2 ^ power := by
  simp [exp2, Nat.shiftLeft_eq]

/-- Source: `fn check_bit(value: usize, index: usize) -> usize
{ (value & (1 << index)) >> index }`. -/
def check_bit (value index : ℕ) : ℕ := (value &&& (1 <<< index)) >>> index

lemma check_bit_eq_testBit (value index : ℕ) :
    check_bit value index = (value.testBit index).toNat := by
  unfold check_bit
  rw [Nat.shiftLeft_eq, one_mul, Nat.and_two_pow, Nat.shiftRight_eq_div_pow]
  exact Nat.mul_div_cancel _ (Nat.two_pow_pos index)

lemma check_bit_eq_zero (value index : ℕ) :
    check_bit value index = 0 ↔ value.testBit index = false := by
  rw [check_bit_eq_testBit]
  cases value.testBit index <;> simp

lemma check_bit_eq_one (value index : ℕ) :
    check_bit value index = 1 ↔ value.testBit index = true := by
  rw [check_bit_eq_testBit]
  cases value.testBit index <;> simp

/-- Insert a cleared bit at position `p`: bits of `n` at positions below `p`
stay in place, bits at positions `p` and above move one position up.  This is
the closed form of the index arithmetic performed by the cached row-pairing
loops of `statevector.rs`. -/
def insertBit (n p : ℕ) : ℕ := n % 2 ^ p + 2 ^ (p + 1) * (n / 2 ^ p)

/-- Remove the bit at position `p`, shifting higher bits one position down:
the left inverse of `insertBit`. -/
def removeBit (m p : ℕ) : ℕ := m % 2 ^ p + 2 ^ p * (m / 2 ^ (p + 1))

lemma testBit_insertBit (n p j : ℕ) :
    (insertBit n p).testBit j =
      if j < p then n.testBit j else if j = p then false else n.testBit (j - 1) := by
  have hlt : n % 2 ^ p < 2 ^ (p + 1) :=
    lt_of_lt_of_le (Nat.mod_lt _ (Nat.two_pow_pos p)) (Nat.pow_le_pow_right (by omega) (by omega))
  unfold insertBit
  rw [add_comm, Nat.testBit_mul_pow_two_add _ hlt]
  by_cases h1 : j < p
  · simp [h1, Nat.lt_succ_of_lt h1, Nat.testBit_mod_two_pow]
  · by_cases h2 : j = p
    · subst h2
      simp [Nat.lt_succ_self, Nat.testBit_mod_two_pow]
    · have h3 : ¬ j < p + 1 := by omega
      simp only [h3, if_false, h1, h2]
      have : n / 2 ^ p = n >>> p := (Nat.shiftRight_eq_div_pow n p).symm
      rw [this, Nat.testBit_shiftRight]
      congr 1
      omega

lemma insertBit_testBit_self (n p : ℕ) : (insertBit n p).testBit p = false := by
  simp [testBit_insertBit]

lemma insertBit_testBit_lt {j p : ℕ} (n : ℕ) (h : j < p) :
    (insertBit n p).testBit j = n.testBit j := by
  simp [testBit_insertBit, h]

lemma insertBit_mod (n p : ℕ) : insertBit n p % 2 ^ p = n % 2 ^ p := by
  unfold insertBit
  rw [pow_succ]
  have : 2 ^ p * 2 * (n / 2 ^ p) = 2 ^ p * (2 * (n / 2 ^ p)) := by ring
  rw [this, Nat.add_mul_mod_self_left]
  exact Nat.mod_mod_of_dvd n dvd_rfl

lemma insertBit_div (n p : ℕ) : insertBit n p / 2 ^ (p + 1) = n / 2 ^ p := by
  unfold insertBit
  rw [Nat.add_mul_div_left _ _ (Nat.two_pow_pos (p + 1))]
  have : n % 2 ^ p / 2 ^ (p + 1) = 0 := by
    apply Nat.div_eq_of_lt
    exact lt_of_lt_of_le (Nat.mod_lt _ (Nat.two_pow_pos p))
      (Nat.pow_le_pow_right (by omega) (by omega))
  omega

lemma removeBit_insertBit (n p : ℕ) : removeBit (insertBit n p) p = n := by
  unfold removeBit
  rw [insertBit_mod, insertBit_div, Nat.mod_add_div]

lemma insertBit_injective {m n p : ℕ} (h : insertBit m p = insertBit n p) : m = n := by
  have := congrArg (fun x => removeBit x p) h
  simpa [removeBit_insertBit] using this

lemma insertBit_le (n p : ℕ) : insertBit n p ≤ 2 * n := by
  have h1 : insertBit n p = n + 2 ^ p * (n / 2 ^ p) := by
    unfold insertBit
    rw [pow_succ]
    have : 2 ^ p * 2 * (n / 2 ^ p) = 2 ^ p * (n / 2 ^ p) + 2 ^ p * (n / 2 ^ p) := by ring
    rw [this, ← add_assoc, Nat.mod_add_div]
  have h2 : 2 ^ p * (n / 2 ^ p) ≤ n := Nat.mul_div_le n (2 ^ p)
  omega

lemma insertBit_add_two_pow_lt {n k : ℕ} (p : ℕ) (hn : n < 2 ^ k) (hp : p ≤ k) :
    insertBit n p + 2 ^ p < 2 ^ (k + 1) := by
  have hmod : n % 2 ^ p < 2 ^ p := Nat.mod_lt _ (Nat.two_pow_pos p)
  have hq : n / 2 ^ p < 2 ^ (k - p) := by
    rw [Nat.div_lt_iff_lt_mul (Nat.two_pow_pos p), ← pow_add]
    have : k - p + p = k := by omega
    rw [this]; exact hn
  have hmul : 2 ^ (p + 1) * (n / 2 ^ p) + 2 ^ (p + 1) ≤ 2 ^ (p + 1) * 2 ^ (k - p) := by
    have h := Nat.mul_le_mul_left (2 ^ (p + 1)) (Nat.succ_le_of_lt hq)
    calc 2 ^ (p + 1) * (n / 2 ^ p) + 2 ^ (p + 1)
        = 2 ^ (p + 1) * (n / 2 ^ p + 1) := by ring
      _ ≤ 2 ^ (p + 1) * 2 ^ (k - p) := h
  have hpow : 2 ^ (p + 1) * 2 ^ (k - p) = 2 ^ (k + 1) := by
    rw [← pow_add]; congr 1; omega
  have hsucc : 2 ^ (p + 1) = 2 * 2 ^ p := by rw [pow_succ]; ring
  unfold insertBit
  omega

lemma insertBit_lt {n k : ℕ} (p : ℕ) (hn : n < 2 ^ k) (hp : p ≤ k) :
    insertBit n p < 2 ^ (k + 1) := by
  have := insertBit_add_two_pow_lt p hn hp
  have := Nat.two_pow_pos p
  omega

lemma removeBit_lt {m k p : ℕ} (hm : m < 2 ^ (k + 1)) (hp : p ≤ k) :
    removeBit m p < 2 ^ k := by
  have hmod : m % 2 ^ p < 2 ^ p := Nat.mod_lt _ (Nat.two_pow_pos p)
  have hq : m / 2 ^ (p + 1) < 2 ^ (k - p) := by
    rw [Nat.div_lt_iff_lt_mul (Nat.two_pow_pos (p + 1)), ← pow_add]
    have : k - p + (p + 1) = k + 1 := by omega
    rw [this]; exact hm
  have hmul : 2 ^ p * (m / 2 ^ (p + 1)) + 2 ^ p ≤ 2 ^ p * 2 ^ (k - p) := by
    have h := Nat.mul_le_mul_left (2 ^ p) (Nat.succ_le_of_lt hq)
    calc 2 ^ p * (m / 2 ^ (p + 1)) + 2 ^ p
        = 2 ^ p * (m / 2 ^ (p + 1) + 1) := by ring
      _ ≤ 2 ^ p * 2 ^ (k - p) := h
  have hpow : 2 ^ p * 2 ^ (k - p) = 2 ^ k := by
    rw [← pow_add]; congr 1; omega
  unfold removeBit
  omega

lemma mod_two_pow_succ_of_testBit_eq_false {m p : ℕ} (h : m.testBit p = false) :
    m % 2 ^ (p + 1) = m % 2 ^ p := by
  have hb : m / 2 ^ p % 2 = 0 := by
    have := Nat.testBit_to_div_mod (x := m) (i := p)
    rw [h] at this
    have h2 : ¬ (m / 2 ^ p % 2 = 1) := by
      intro hc
      simp [hc] at this
    omega
  have : m % (2 ^ p * 2) = m % 2 ^ p + 2 ^ p * (m / 2 ^ p % 2) := Nat.mod_mul
  rw [pow_succ, this, hb]
  ring

lemma insertBit_removeBit {m p : ℕ} (h : m.testBit p = false) :
    insertBit (removeBit m p) p = m := by
  have hmod : removeBit m p % 2 ^ p = m % 2 ^ p := by
    unfold removeBit
    rw [Nat.add_mul_mod_self_left]
    exact Nat.mod_mod_of_dvd _ dvd_rfl
  have hdiv : removeBit m p / 2 ^ p = m / 2 ^ (p + 1) := by
    unfold removeBit
    rw [Nat.add_mul_div_left _ _ (Nat.two_pow_pos p)]
    have h0 : m % 2 ^ p / 2 ^ p = 0 := Nat.div_eq_of_lt (Nat.mod_lt _ (Nat.two_pow_pos p))
    omega
  unfold insertBit
  rw [hmod, hdiv]
  have hm : m % 2 ^ (p + 1) = m % 2 ^ p := mod_two_pow_succ_of_testBit_eq_false h
  calc m % 2 ^ p + 2 ^ (p + 1) * (m / 2 ^ (p + 1))
      = m % 2 ^ (p + 1) + 2 ^ (p + 1) * (m / 2 ^ (p + 1)) := by rw [hm]
    _ = m := Nat.mod_add_div _ _

/-- Adding `2 ^ p` to a number whose bit `p` is clear is the same as flipping
bit `p`. -/
lemma add_two_pow_eq_xor {m : ℕ} (p : ℕ) (h : m.testBit p = false) :
    m + 2 ^ p = m ^^^ 2 ^ p := by
  have hm : m = 2 ^ (p + 1) * (m / 2 ^ (p + 1)) + m % 2 ^ (p + 1) := by
    rw [Nat.div_add_mod]
  have hmod : m % 2 ^ (p + 1) = m % 2 ^ p := mod_two_pow_succ_of_testBit_eq_false h
  apply Nat.eq_of_testBit_eq
  intro j
  rw [Nat.testBit_xor, Nat.testBit_two_pow]
  by_cases h1 : j < p
  · rw [add_comm m, Nat.testBit_two_pow_add_gt h1]
    have : ¬ p = j := by omega
    simp [this]
  · by_cases h2 : j = p
    · subst h2
      rw [add_comm m, Nat.testBit_two_pow_add_eq, h]
      simp
    · have h3 : p < j := by omega
      have hlt : m % 2 ^ p + 2 ^ p < 2 ^ (p + 1) := by
        have := Nat.mod_lt m (Nat.two_pow_pos p)
        have : 2 ^ (p + 1) = 2 * 2 ^ p := by rw [pow_succ]; ring
        omega
      have hL : m + 2 ^ p = 2 ^ (p + 1) * (m / 2 ^ (p + 1)) + (m % 2 ^ p + 2 ^ p) := by
        conv_lhs => rw [hm, hmod]
        ring
      rw [hL, Nat.testBit_mul_pow_two_add _ hlt]
      have h4 : ¬ j < p + 1 := by omega
      simp only [h4, if_false]
      conv_rhs => rw [hm, hmod]
      rw [Nat.testBit_mul_pow_two_add _ (hmod ▸ Nat.mod_lt m (Nat.two_pow_pos (p + 1)))]
      have : ¬ p = j := by omega
      simp [h4, this]

lemma testBit_add_two_pow_of_ne {m p j : ℕ} (h : m.testBit p = false) (hj : j ≠ p) :
    (m + 2 ^ p).testBit j = m.testBit j := by
  rw [add_two_pow_eq_xor p h, Nat.testBit_xor, Nat.testBit_two_pow]
  have : ¬ p = j := fun hc => hj hc.symm
  simp [this]

lemma testBit_add_two_pow_self {m p : ℕ} (h : m.testBit p = false) :
    (m + 2 ^ p).testBit p = true := by
  rw [add_two_pow_eq_xor p h, Nat.testBit_xor, Nat.testBit_two_pow, h]
  simp

lemma insertBit_eq_of_lt {x p : ℕ} (h : x < 2 ^ p) : insertBit x p = x := by
  unfold insertBit
  rw [Nat.mod_eq_of_lt h, Nat.div_eq_of_lt h]
  ring

lemma insertBit_add_mul (m b : ℕ) {p q : ℕ} (hpq : p ≤ q) :
    insertBit (m + 2 ^ q * b) p = insertBit m p + 2 ^ (q + 1) * b := by
  have hsplit : 2 ^ q = 2 ^ p * 2 ^ (q - p) := by
    rw [← pow_add]; congr 1; omega
  have h1 : (m + 2 ^ q * b) % 2 ^ p = m % 2 ^ p := by
    rw [hsplit, mul_assoc, Nat.add_mul_mod_self_left]
  have h2 : (m + 2 ^ q * b) / 2 ^ p = m / 2 ^ p + 2 ^ (q - p) * b := by
    rw [hsplit, mul_assoc, mul_comm (2 ^ p), Nat.add_mul_div_right _ _ (Nat.two_pow_pos p)]
  unfold insertBit
  rw [h1, h2, Nat.mul_add]
  have h3 : 2 ^ (p + 1) * (2 ^ (q - p) * b) = 2 ^ (q + 1) * b := by
    rw [← mul_assoc, ← pow_add]
    congr 2
    omega
  omega

lemma bit_of_and_mask (n j : ℕ) :
    (if n &&& 2 ^ j ≠ 0 then 1 else 0) = n / 2 ^ j % 2 := by
  rw [Nat.and_two_pow]
  have htb := Nat.testBit_to_div_mod (x := n) (i := j)
  cases h : n.testBit j
  · rw [h] at htb
    have h2 : ¬ (n / 2 ^ j % 2 = 1) := by
      intro hc; simp [hc] at htb
    have h3 : n / 2 ^ j % 2 = 0 := by omega
    simp [h, h3]
  · rw [h] at htb
    have h2 : n / 2 ^ j % 2 = 1 := by
      by_contra hc; simp [hc] at htb
    have h3 : (2 : ℕ) ^ j ≠ 0 := (Nat.two_pow_pos j).ne'
    simp [h, h2, h3]

lemma mod_two_pow_succ (n k : ℕ) :
    n % 2 ^ (k + 1) = n % 2 ^ k + 2 ^ k * (n / 2 ^ k % 2) := by
  rw [pow_succ]
  exact Nat.mod_mul

lemma two_pow_shiftLeft_one (j : ℕ) : (2 ^ j) <<< 1 = 2 ^ (j + 1) := by
  rw [Nat.shiftLeft_eq, ← pow_add]

/-! ### Cached pairing functions (module `cached_fns` of `statevector.rs`) -/

/-- One iteration of the inner loop of `find_target_rows`; the accumulator is
`(mask, histogram_index_0, histogram_index_1)`.  Source: the `for i in
0..qubit_width` loop body of `find_target_rows`. -/
def targetRowsStep (t n : ℕ) (acc : ℕ × ℕ × ℕ) (i : ℕ) : ℕ × ℕ × ℕ :=
  if i = t then (acc.1, acc.2.1, acc.2.2 + exp2 t)
  else
    let bit : ℕ := if n &&& acc.1 ≠ 0 then 1 else 0
    (acc.1 <<< 1, acc.2.1 + bit * exp2 i, acc.2.2 + bit * exp2 i)

/-- The pair `(histogram_index_0, histogram_index_1)` pushed for context row
`n` by `find_target_rows`. -/
def targetRowsEntry (qubit_width t n : ℕ) : ℕ × ℕ :=
  let r := (List.range qubit_width).foldl (targetRowsStep t n) (1, 0, 0)
  (r.2.1, r.2.2)

/-- Source: `find_target_rows(qubit_width, t)`, the cached pairing function
used by `StateVector::u`. -/
def find_target_rows (qubit_width t : ℕ) : List (ℕ × ℕ) :=
  (List.range (exp2 (qubit_width - 1))).map (targetRowsEntry qubit_width t)

lemma targetRows_foldl (t n : ℕ) :
    ∀ k, (List.range k).foldl (targetRowsStep t n) (1, 0, 0) =
      if k ≤ t then ((2 : ℕ) ^ k, n % 2 ^ k, n % 2 ^ k)
      else ((2 : ℕ) ^ (k - 1), insertBit (n % 2 ^ (k - 1)) t,
            insertBit (n % 2 ^ (k - 1)) t + 2 ^ t) := by
  intro k
  induction k with
  | zero => simp [Nat.mod_one]
  | succ k ih =>
      rw [List.range_succ, List.foldl_append, ih]
      simp only [List.foldl_cons, List.foldl_nil]
      by_cases h1 : k < t
      · -- phase 1: the bit-consuming branch, below the target position
        have hk : k ≤ t := le_of_lt h1
        have hk1 : k + 1 ≤ t := h1
        have hkt : ¬ (k = t) := by omega
        simp only [hk, if_true, hk1, targetRowsStep, hkt, if_false]
        rw [bit_of_and_mask, two_pow_shiftLeft_one, exp2_eq]
        simp only [Prod.mk.injEq]
        refine ⟨trivial, ?_, ?_⟩ <;> rw [mod_two_pow_succ] <;> ring
      · by_cases h2 : k = t
        · -- phase 2: the `i == t` branch
          subst h2
          have hk : k ≤ k := le_refl k
          have hk1 : ¬ (k + 1 ≤ k) := by omega
          simp only [hk, if_true, hk1, if_false, targetRowsStep, exp2_eq,
            Nat.add_sub_cancel]
          have hins : insertBit (n % 2 ^ k) k = n % 2 ^ k :=
            insertBit_eq_of_lt (Nat.mod_lt _ (Nat.two_pow_pos k))
          rw [hins]
        · -- phase 3: the bit-consuming branch, above the target position
          have hk : ¬ (k ≤ t) := by omega
          have hk1 : ¬ (k + 1 ≤ t) := by omega
          have hkt : ¬ (k = t) := h2
          have hkpos : 1 ≤ k := by omega
          simp only [hk, if_false, hk1, targetRowsStep, hkt]
          rw [bit_of_and_mask, two_pow_shiftLeft_one, exp2_eq]
          have hmod : n % 2 ^ (k + 1 - 1) =
              n % 2 ^ (k - 1) + 2 ^ (k - 1) * (n / 2 ^ (k - 1) % 2) := by
            have h3 : k + 1 - 1 = (k - 1) + 1 := by omega
            rw [h3, mod_two_pow_succ]
          have hins : insertBit (n % 2 ^ (k + 1 - 1)) t =
              insertBit (n % 2 ^ (k - 1)) t + 2 ^ k * (n / 2 ^ (k - 1) % 2) := by
            rw [hmod, insertBit_add_mul _ _ (by omega : t ≤ k - 1)]
            have hexp : k - 1 + 1 = k := by omega
            rw [hexp]
          rw [hins]
          simp only [Prod.mk.injEq]
          refine ⟨?_, ?_, ?_⟩
          · congr 1
            omega
          · ring
          · ring

lemma targetRowsEntry_eq {qubit_width t n : ℕ} (ht : t < qubit_width)
    (hn : n < 2 ^ (qubit_width - 1)) :
    targetRowsEntry qubit_width t n = (insertBit n t, insertBit n t + 2 ^ t) := by
  unfold targetRowsEntry
  rw [targetRows_foldl]
  have h1 : ¬ (qubit_width ≤ t) := by omega
  simp only [h1, if_false]
  rw [Nat.mod_eq_of_lt hn]

/-- One iteration of the inner loop of `find_exchangeable_rows`; the
accumulator is `(mask, histogram_index_10, histogram_index_11)`.  Source: the
`for i in 0..qubit_width` loop body of `find_exchangeable_rows`. -/
def exchangeableStep (c t n : ℕ) (acc : ℕ × ℕ × ℕ) (i : ℕ) : ℕ × ℕ × ℕ :=
  if i = t then (acc.1, acc.2.1, acc.2.2 + exp2 t)
  else if i = c then (acc.1, acc.2.1 + exp2 c, acc.2.2 + exp2 c)
  else
    let bit : ℕ := if n &&& acc.1 ≠ 0 then 1 else 0
    (acc.1 <<< 1, acc.2.1 + bit * exp2 i, acc.2.2 + bit * exp2 i)

/-- The pair `(histogram_index_10, histogram_index_11)` pushed for context row
`n` by `find_exchangeable_rows`. -/
def exchangeableEntry (qubit_width c t n : ℕ) : ℕ × ℕ :=
  let r := (List.range qubit_width).foldl (exchangeableStep c t n) (1, 0, 0)
  (r.2.1, r.2.2)

/-- Source: `find_exchangeable_rows(qubit_width, c, t)`, the cached pairing
function used by `StateVector::cnot`. -/
def find_exchangeable_rows (qubit_width c t : ℕ) : List (ℕ × ℕ) :=
  (List.range (exp2 (qubit_width - 2))).map (exchangeableEntry qubit_width c t)

/-- Mask value of the `find_exchangeable_rows` loop after `k` iterations,
where `u < v` are the two skipped positions. -/
def exchMask (u v k : ℕ) : ℕ :=
  if k ≤ u then 2 ^ k else if k ≤ v then 2 ^ (k - 1) else 2 ^ (k - 2)

/-- Bits of `n` placed by the `find_exchangeable_rows` loop after `k`
iterations, skipping positions `u < v`. -/
def exchPlace (n u v k : ℕ) : ℕ :=
  if k ≤ u then n % 2 ^ k
  else if k ≤ v then insertBit (n % 2 ^ (k - 1)) u
  else insertBit (insertBit (n % 2 ^ (k - 2)) u) v

lemma exchangeable_foldl {c t u v : ℕ} (n : ℕ) (huv : u < v)
    (hor : (u = c ∧ v = t) ∨ (u = t ∧ v = c)) :
    ∀ k, (List.range k).foldl (exchangeableStep c t n) (1, 0, 0) =
      (exchMask u v k,
       exchPlace n u v k + (if c < k then 2 ^ c else 0),
       exchPlace n u v k + (if c < k then 2 ^ c else 0) + (if t < k then 2 ^ t else 0)) := by
  have hct : c ≠ t := by rcases hor with ⟨hu, hv⟩ | ⟨hu, hv⟩ <;> omega
  intro k
  induction k with
  | zero =>
      have h0 : (0 : ℕ) ≤ u := Nat.zero_le u
      simp [exchMask, exchPlace, Nat.mod_one]
  | succ k ih =>
      rw [List.range_succ, List.foldl_append, ih]
      simp only [List.foldl_cons, List.foldl_nil]
      by_cases h1 : k < u
      · -- phase 1: bit-consuming branch below both skipped positions
        have hkt : ¬ (k = t) := by rcases hor with ⟨hu, hv⟩ | ⟨hu, hv⟩ <;> omega
        have hkc : ¬ (k = c) := by rcases hor with ⟨hu, hv⟩ | ⟨hu, hv⟩ <;> omega
        have hcf : ¬ (c < k) := by rcases hor with ⟨hu, hv⟩ | ⟨hu, hv⟩ <;> omega
        have hcf1 : ¬ (c < k + 1) := by rcases hor with ⟨hu, hv⟩ | ⟨hu, hv⟩ <;> omega
        have htf : ¬ (t < k) := by rcases hor with ⟨hu, hv⟩ | ⟨hu, hv⟩ <;> omega
        have htf1 : ¬ (t < k + 1) := by rcases hor with ⟨hu, hv⟩ | ⟨hu, hv⟩ <;> omega
        have hk : k ≤ u := le_of_lt h1
        have hk1 : k + 1 ≤ u := h1
        simp only [exchangeableStep, hkt, hkc, if_false, exchMask, exchPlace, hk, hk1,
          if_true, hcf, hcf1, htf, htf1]
        rw [bit_of_and_mask, two_pow_shiftLeft_one, exp2_eq]
        simp only [Prod.mk.injEq]
        refine ⟨trivial, ?_, ?_⟩ <;> rw [mod_two_pow_succ] <;> ring
      · by_cases h2 : k = u
        · -- phase 2: the first skipped position
          subst h2
          have hins : insertBit (n % 2 ^ k) k = n % 2 ^ k :=
            insertBit_eq_of_lt (Nat.mod_lt _ (Nat.two_pow_pos k))
          rcases hor with ⟨hu, hv⟩ | ⟨hu, hv⟩
          · -- u = c, v = t: the `i == c` branch fires
            subst hu
            subst hv
            have hkv : ¬ (k = v) := by omega
            have hk1 : ¬ (k + 1 ≤ k) := by omega
            have hk1v : k + 1 ≤ v := huv
            have hvk : ¬ (v < k) := by omega
            have hvk1 : ¬ (v < k + 1) := by omega
            have hkk : ¬ (k < k) := by omega
            have hkk1 : k < k + 1 := by omega
            simp only [exchangeableStep, exchMask, exchPlace, exp2_eq,
              Nat.add_sub_cancel, hkv, hk1, hk1v, hvk, hvk1, hkk, hkk1,
              le_refl, eq_self_iff_true, if_true, if_false, hins, add_zero]
          · -- u = t, v = c: the `i == t` branch fires
            subst hu
            subst hv
            have hk1 : ¬ (k + 1 ≤ k) := by omega
            have hk1v : k + 1 ≤ v := huv
            have hvk : ¬ (v < k) := by omega
            have hvk1 : ¬ (v < k + 1) := by omega
            have hkk : ¬ (k < k) := by omega
            have hkk1 : k < k + 1 := by omega
            simp only [exchangeableStep, exchMask, exchPlace, exp2_eq,
              Nat.add_sub_cancel, hk1, hk1v, hvk, hvk1, hkk, hkk1,
              le_refl, eq_self_iff_true, if_true, if_false, hins, add_zero]
        · by_cases h3 : k < v
          · -- phase 3: bit-consuming branch between the skipped positions
            have hku : u < k := by omega
            have hkt : ¬ (k = t) := by rcases hor with ⟨hu, hv⟩ | ⟨hu, hv⟩ <;> omega
            have hkc : ¬ (k = c) := by rcases hor with ⟨hu, hv⟩ | ⟨hu, hv⟩ <;> omega
            have hk : ¬ (k ≤ u) := by omega
            have hk1 : ¬ (k + 1 ≤ u) := by omega
            have hkv : k ≤ v := le_of_lt h3
            have hk1v : k + 1 ≤ v := h3
            have hcc : (if c < k + 1 then (2 : ℕ) ^ c else 0) = if c < k then 2 ^ c else 0 := by
              have h5 : (c < k + 1) ↔ (c < k) := by omega
              rw [if_congr h5 rfl rfl]
            have htt : (if t < k + 1 then (2 : ℕ) ^ t else 0) = if t < k then 2 ^ t else 0 := by
              have h5 : (t < k + 1) ↔ (t < k) := by omega
              rw [if_congr h5 rfl rfl]
            have hins : insertBit (n % 2 ^ (k + 1 - 1)) u =
                insertBit (n % 2 ^ (k - 1)) u + 2 ^ k * (n / 2 ^ (k - 1) % 2) := by
              have h4 : k + 1 - 1 = (k - 1) + 1 := by omega
              rw [h4, mod_two_pow_succ, insertBit_add_mul _ _ (by omega : u ≤ k - 1)]
              have h5 : k - 1 + 1 = k := by omega
              rw [h5]
            simp only [exchangeableStep, hkt, hkc, if_false, exchMask, exchPlace,
              hk, hk1, hkv, hk1v, if_true, hcc, htt]
            rw [bit_of_and_mask, two_pow_shiftLeft_one, exp2_eq, hins]
            simp only [Prod.mk.injEq]
            refine ⟨?_, ?_, ?_⟩
            · congr 1
              omega
            · ring
            · ring
          · by_cases h4 : k = v
            · -- phase 4: the second skipped position
              subst h4
              have hku : u < k := by omega
              have hk : ¬ (k ≤ u) := by omega
              have hk1 : ¬ (k + 1 ≤ u) := by omega
              have hk1v : ¬ (k + 1 ≤ k) := by omega
              have he : k + 1 - 2 = k - 1 := by omega
              have hins : insertBit (insertBit (n % 2 ^ (k - 1)) u) k =
                  insertBit (n % 2 ^ (k - 1)) u := by
                apply insertBit_eq_of_lt
                have hb : n % 2 ^ (k - 1) < 2 ^ (k - 1) := Nat.mod_lt _ (Nat.two_pow_pos _)
                have h7 := insertBit_lt u hb (by omega : u ≤ k - 1)
                have h6 : k - 1 + 1 = k := by omega
                rwa [h6] at h7
              rcases hor with ⟨hu, hv⟩ | ⟨hu, hv⟩
              · -- u = c, v = t: the `i == t` branch fires
                subst hv
                subst hu
                have hcf : u < k := hku
                have hcf1 : u < k + 1 := by omega
                have htf : ¬ (k < k) := by omega
                have htf1 : k < k + 1 := by omega
                simp only [exchangeableStep, exchMask, exchPlace, exp2_eq, he,
                  hk, hk1, hk1v, hcf, hcf1, htf, htf1, le_refl,
                  eq_self_iff_true, if_true, if_false, hins, add_zero]
              · -- u = t, v = c: the `i == c` branch fires
                subst hv
                subst hu
                have hkune : ¬ (k = u) := by omega
                have hcf : ¬ (k < k) := by omega
                have hcf1 : k < k + 1 := by omega
                have htf : u < k := hku
                have htf1 : u < k + 1 := by omega
                simp only [exchangeableStep, exchMask, exchPlace, exp2_eq, he,
                  hk, hk1, hk1v, hkune, hcf, hcf1, htf, htf1, le_refl,
                  eq_self_iff_true, if_true, if_false, hins, add_zero]
                simp only [Prod.mk.injEq]
                exact ⟨trivial, trivial, by ring⟩
            · -- phase 5: bit-consuming branch above both skipped positions
              have hkv : v < k := by omega
              have hkk : 2 ≤ k := by omega
              have hkt : ¬ (k = t) := by rcases hor with ⟨hu, hv⟩ | ⟨hu, hv⟩ <;> omega
              have hkc : ¬ (k = c) := by rcases hor with ⟨hu, hv⟩ | ⟨hu, hv⟩ <;> omega
              have hk : ¬ (k ≤ u) := by omega
              have hk1 : ¬ (k + 1 ≤ u) := by omega
              have hk2 : ¬ (k ≤ v) := by omega
              have hk3 : ¬ (k + 1 ≤ v) := by omega
              have hcf : c < k := by rcases hor with ⟨hu, hv⟩ | ⟨hu, hv⟩ <;> omega
              have hcf1 : c < k + 1 := by omega
              have htf : t < k := by rcases hor with ⟨hu, hv⟩ | ⟨hu, hv⟩ <;> omega
              have htf1 : t < k + 1 := by omega
              have hins : insertBit (insertBit (n % 2 ^ (k + 1 - 2)) u) v =
                  insertBit (insertBit (n % 2 ^ (k - 2)) u) v +
                    2 ^ k * (n / 2 ^ (k - 2) % 2) := by
                have h5 : k + 1 - 2 = (k - 2) + 1 := by omega
                rw [h5, mod_two_pow_succ, insertBit_add_mul _ _ (by omega : u ≤ k - 2)]
                have h6 : k - 2 + 1 = k - 1 := by omega
                rw [h6, insertBit_add_mul _ _ (by omega : v ≤ k - 1)]
                have h7 : k - 1 + 1 = k := by omega
                rw [h7]
              simp only [exchangeableStep, hkt, hkc, if_false, exchMask, exchPlace,
                hk, hk1, hk2, hk3, if_true, hcf, hcf1, htf, htf1]
              rw [bit_of_and_mask, two_pow_shiftLeft_one, exp2_eq, hins]
              simp only [Prod.mk.injEq]
              refine ⟨?_, ?_, ?_⟩
              · congr 1
                omega
              · ring
              · ring

lemma exchangeableEntry_eq {qubit_width c t u v n : ℕ} (huv : u < v)
    (hor : (u = c ∧ v = t) ∨ (u = t ∧ v = c)) (hv : v < qubit_width)
    (hn : n < 2 ^ (qubit_width - 2)) :
    exchangeableEntry qubit_width c t n =
      (insertBit (insertBit n u) v + 2 ^ c,
       insertBit (insertBit n u) v + 2 ^ c + 2 ^ t) := by
  unfold exchangeableEntry
  rw [exchangeable_foldl n huv hor]
  have h1 : ¬ (qubit_width ≤ u) := by omega
  have h2 : ¬ (qubit_width ≤ v) := by omega
  have h3 : c < qubit_width := by rcases hor with ⟨hu2, hv2⟩ | ⟨hu2, hv2⟩ <;> omega
  have h4 : t < qubit_width := by rcases hor with ⟨hu2, hv2⟩ | ⟨hu2, hv2⟩ <;> omega
  simp only [exchPlace, h1, h2, if_false, h3, h4, if_true]
  rw [Nat.mod_eq_of_lt hn]

/-! ### The in-place pair-update loop shared by `cnot` and `u` -/

lemma getD_set_ne {α : Type*} {l : List α} {i j : ℕ} (h : i ≠ j) (a d : α) :
    (l.set i a).getD j d = l.getD j d := by
  simp [List.getD, List.getElem?_set_ne h]

lemma getD_set_self {α : Type*} {l : List α} {i : ℕ} (h : i < l.length) (a d : α) :
    (l.set i a).getD i d = a := by
  simp [List.getD, List.getElem?_set_self h]

/-- Well-formedness of a row-pair list: the pairs touch pairwise disjoint
indices and each pair consists of two distinct in-range indices. -/
def LawfulRows (rows : List (ℕ × ℕ)) (len : ℕ) : Prop :=
  rows.Pairwise (fun p q => p.1 ≠ q.1 ∧ p.1 ≠ q.2 ∧ p.2 ≠ q.1 ∧ p.2 ≠ q.2) ∧
    ∀ p ∈ rows, p.1 ≠ p.2 ∧ p.1 < len ∧ p.2 < len

/-- The gate-application loops of `StateVector::cnot` and `StateVector::u`:
for each row pair, read the two selected amplitudes and overwrite them with
`f` of the pair.  `cnot` instantiates `f` with the swap `(a, b) ↦ (b, a)`
(`Vec::swap`), `u` with the matrix action. -/
def applyPairs (f : ℂ → ℂ → ℂ × ℂ) (rows : List (ℕ × ℕ)) (bases : List ℂ) : List ℂ :=
  rows.foldl
    (fun bs p =>
      let selected := (bs.getD p.1 0, bs.getD p.2 0)
      (bs.set p.1 (f selected.1 selected.2).1).set p.2 (f selected.1 selected.2).2)
    bases

lemma applyPairs_nil (f : ℂ → ℂ → ℂ × ℂ) (bases : List ℂ) :
    applyPairs f [] bases = bases := rfl

lemma applyPairs_cons (f : ℂ → ℂ → ℂ × ℂ) (p : ℕ × ℕ) (rows : List (ℕ × ℕ))
    (bases : List ℂ) :
    applyPairs f (p :: rows) bases =
      applyPairs f rows
        ((bases.set p.1 (f (bases.getD p.1 0) (bases.getD p.2 0)).1).set p.2
          (f (bases.getD p.1 0) (bases.getD p.2 0)).2) := rfl

lemma applyPairs_length (f : ℂ → ℂ → ℂ × ℂ) :
    ∀ (rows : List (ℕ × ℕ)) (bases : List ℂ),
      (applyPairs f rows bases).length = bases.length := by
  intro rows
  induction rows with
  | nil => intro bases; rfl
  | cons p rest ih =>
      intro bases
      rw [applyPairs_cons, ih]
      simp

lemma applyPairs_getD_of_disjoint (f : ℂ → ℂ → ℂ × ℂ) :
    ∀ (rows : List (ℕ × ℕ)) (bases : List ℂ) (i : ℕ),
      (∀ p ∈ rows, i ≠ p.1 ∧ i ≠ p.2) →
      (applyPairs f rows bases).getD i 0 = bases.getD i 0 := by
  intro rows
  induction rows with
  | nil => intro bases i _; rfl
  | cons p rest ih =>
      intro bases i hdisj
      have hp := hdisj p (List.mem_cons_self p rest)
      rw [applyPairs_cons, ih _ _ (fun q hq => hdisj q (List.mem_cons_of_mem p hq)),
        getD_set_ne (fun h => hp.2 h.symm), getD_set_ne (fun h => hp.1 h.symm)]

lemma applyPairs_getD_of_mem (f : ℂ → ℂ → ℂ × ℂ) :
    ∀ (rows : List (ℕ × ℕ)) (bases : List ℂ), LawfulRows rows bases.length →
      ∀ p ∈ rows,
        (applyPairs f rows bases).getD p.1 0 =
          (f (bases.getD p.1 0) (bases.getD p.2 0)).1 ∧
        (applyPairs f rows bases).getD p.2 0 =
          (f (bases.getD p.1 0) (bases.getD p.2 0)).2 := by
  intro rows
  induction rows with
  | nil => intro bases _ p hp; cases hp
  | cons q rest ih =>
      intro bases hlaw p hp
      obtain ⟨hpw, hmem⟩ := hlaw
      have hq := hmem q (List.mem_cons_self q rest)
      have hhead := (List.pairwise_cons.mp hpw).1
      have htail := (List.pairwise_cons.mp hpw).2
      rcases List.mem_cons.mp hp with rfl | hrest
      · -- the head pair itself
        rw [applyPairs_cons]
        have hdisj : ∀ r ∈ rest, p.1 ≠ r.1 ∧ p.1 ≠ r.2 := by
          intro r hr
          exact ⟨(hhead r hr).1, (hhead r hr).2.1⟩
        have hdisj2 : ∀ r ∈ rest, p.2 ≠ r.1 ∧ p.2 ≠ r.2 := by
          intro r hr
          exact ⟨(hhead r hr).2.2.1, (hhead r hr).2.2.2⟩
        constructor
        · rw [applyPairs_getD_of_disjoint f rest _ _ hdisj,
            getD_set_ne (fun h => hq.1 h.symm), getD_set_self (by simpa using hq.2.1)]
        · rw [applyPairs_getD_of_disjoint f rest _ _ hdisj2,
            getD_set_self (by simpa using hq.2.2)]
      · -- a pair further down the list
        rw [applyPairs_cons]
        have hne := hhead p hrest
        have hlaw2 : LawfulRows rest
            (((bases.set q.1 (f (bases.getD q.1 0) (bases.getD q.2 0)).1).set q.2
              (f (bases.getD q.1 0) (bases.getD q.2 0)).2).length) := by
          constructor
          · exact htail
          · intro r hr
            have := hmem r (List.mem_cons_of_mem q hr)
            simpa using this
        have := ih _ hlaw2 p hrest
        rw [getD_set_ne hne.2.2.1, getD_set_ne hne.1,
          getD_set_ne hne.2.2.2, getD_set_ne hne.2.1] at this
        exact this

/-- Born-rule total probability of an amplitude list. -/
def normSum (bases : List ℂ) : ℝ := (bases.map Complex.normSq).sum

lemma normSum_set {bases : List ℂ} {i : ℕ} (h : i < bases.length) (x : ℂ) :
    normSum (bases.set i x) =
      normSum bases - Complex.normSq (bases.getD i 0) + Complex.normSq x := by
  unfold normSum
  rw [List.map_set, sum_set _ i _ (by simpa using h)]
  congr 2
  have : Complex.normSq (0 : ℂ) = 0 := by simp
  calc (List.map Complex.normSq bases).getD i 0
      = (List.map Complex.normSq bases).getD i (Complex.normSq 0) := by rw [this]
    _ = Complex.normSq (bases.getD i 0) := List.getD_map bases 0 Complex.normSq

lemma applyPairs_normSum (f : ℂ → ℂ → ℂ × ℂ)
    (hf : ∀ a b, Complex.normSq (f a b).1 + Complex.normSq (f a b).2 =
      Complex.normSq a + Complex.normSq b) :
    ∀ (rows : List (ℕ × ℕ)) (bases : List ℂ), LawfulRows rows bases.length →
      normSum (applyPairs f rows bases) = normSum bases := by
  intro rows
  induction rows with
  | nil => intro bases _; rfl
  | cons q rest ih =>
      intro bases hlaw
      obtain ⟨hpw, hmem⟩ := hlaw
      have hq := hmem q (List.mem_cons_self q rest)
      have htail := (List.pairwise_cons.mp hpw).2
      rw [applyPairs_cons]
      have hlen1 : q.1 < (bases.set q.1 (f (bases.getD q.1 0) (bases.getD q.2 0)).1).length := by
        simpa using hq.2.1
      have hlen2 : q.2 < (bases.set q.1 (f (bases.getD q.1 0) (bases.getD q.2 0)).1).length := by
        simpa using hq.2.2
      have hlaw2 : LawfulRows rest
          (((bases.set q.1 (f (bases.getD q.1 0) (bases.getD q.2 0)).1).set q.2
            (f (bases.getD q.1 0) (bases.getD q.2 0)).2).length) := by
        constructor
        · exact htail
        · intro r hr
          have := hmem r (List.mem_cons_of_mem q hr)
          simpa using this
      rw [ih _ hlaw2, normSum_set (by simpa using hq.2.2),
        normSum_set hq.2.1, getD_set_ne hq.1]
      have := hf (bases.getD q.1 0) (bases.getD q.2 0)
      linarith

/-! ### Structure of the generated row lists -/

lemma ne_of_testBit_ne {a b j : ℕ} (h : a.testBit j ≠ b.testBit j) : a ≠ b :=
  fun hc => h (by rw [hc])

lemma find_target_rows_eq {w t : ℕ} (ht : t < w) :
    find_target_rows w t =
      (List.range (2 ^ (w - 1))).map
        (fun n => (insertBit n t, insertBit n t + 2 ^ t)) := by
  unfold find_target_rows
  rw [exp2_eq]
  exact List.map_congr_left (fun n hn => targetRowsEntry_eq ht (List.mem_range.mp hn))

lemma target_snd_testBit (n t : ℕ) : (insertBit n t + 2 ^ t).testBit t = true :=
  testBit_add_two_pow_self (insertBit_testBit_self n t)

lemma lawful_target_rows {w t : ℕ} (ht : t < w) :
    LawfulRows (find_target_rows w t) (2 ^ w) := by
  rw [find_target_rows_eq ht]
  constructor
  · rw [List.pairwise_map]
    apply List.Pairwise.imp ?_ (List.pairwise_lt_range _)
    intro m n hmn
    refine ⟨?_, ?_, ?_, ?_⟩
    · intro h
      exact absurd (insertBit_injective h) (by omega)
    · apply ne_of_testBit_ne
      rw [insertBit_testBit_self, target_snd_testBit]
      simp
    · apply ne_of_testBit_ne
      rw [insertBit_testBit_self, target_snd_testBit]
      simp
    · intro h
      exact absurd (insertBit_injective (Nat.add_right_cancel h)) (by omega)
  · intro p hp
    rw [List.mem_map] at hp
    obtain ⟨n, hn, rfl⟩ := hp
    have hnr : n < 2 ^ (w - 1) := List.mem_range.mp hn
    have h1 : t ≤ w - 1 := by omega
    have hlt := insertBit_lt t hnr h1
    have hlt2 := insertBit_add_two_pow_lt t hnr h1
    have hw : w - 1 + 1 = w := by omega
    rw [hw] at hlt hlt2
    refine ⟨?_, hlt, hlt2⟩
    apply ne_of_testBit_ne
    rw [insertBit_testBit_self, target_snd_testBit]
    simp

/-- The basis index built by `find_exchangeable_rows` before the control and
target bits are set: the bits of `n` distributed over the positions other
than `c` and `t`. -/
def exchBase (n c t : ℕ) : ℕ := insertBit (insertBit n (min c t)) (max c t)

lemma exchBase_testBit_left {c t : ℕ} (n : ℕ) (hct : c ≠ t) :
    (exchBase n c t).testBit c = false := by
  unfold exchBase
  rcases le_or_lt c t with h | h
  · rw [min_eq_left h, max_eq_right h]
    rw [insertBit_testBit_lt _ (by omega : c < t)]
    exact insertBit_testBit_self n c
  · rw [min_eq_right h.le, max_eq_left h.le]
    exact insertBit_testBit_self _ c

lemma exchBase_testBit_right {c t : ℕ} (n : ℕ) (hct : c ≠ t) :
    (exchBase n c t).testBit t = false := by
  unfold exchBase
  rcases le_or_lt c t with h | h
  · rw [min_eq_left h, max_eq_right h]
    exact insertBit_testBit_self _ t
  · rw [min_eq_right h.le, max_eq_left h.le]
    rw [insertBit_testBit_lt _ (by omega : t < c)]
    exact insertBit_testBit_self n t

lemma exchBase_injective {c t m n : ℕ} (h : exchBase m c t = exchBase n c t) : m = n :=
  insertBit_injective (insertBit_injective h)

lemma exchBase_lt {w c t n : ℕ} (hc : c < w) (ht : t < w) (hct : c ≠ t)
    (hn : n < 2 ^ (w - 2)) : exchBase n c t < 2 ^ w := by
  have hw2 : 2 ≤ w := by omega
  have hmin : min c t ≤ w - 2 := by
    rcases le_or_lt c t with h | h
    · rw [min_eq_left h]; omega
    · rw [min_eq_right h.le]; omega
  have hmax : max c t ≤ w - 1 := by
    rcases le_or_lt c t with h | h
    · rw [max_eq_right h]; omega
    · rw [max_eq_left h.le]; omega
  have h1 := insertBit_lt (min c t) hn hmin
  have hw1 : w - 2 + 1 = w - 1 := by omega
  rw [hw1] at h1
  have h2 := insertBit_lt (max c t) h1 hmax
  have hw0 : w - 1 + 1 = w := by omega
  rw [hw0] at h2
  exact h2

lemma find_exchangeable_rows_eq {w c t : ℕ} (hc : c < w) (ht : t < w) (hct : c ≠ t) :
    find_exchangeable_rows w c t =
      (List.range (2 ^ (w - 2))).map
        (fun n => (exchBase n c t + 2 ^ c, exchBase n c t + 2 ^ c + 2 ^ t)) := by
  unfold find_exchangeable_rows
  rw [exp2_eq]
  apply List.map_congr_left
  intro n hn
  have hor : (min c t = c ∧ max c t = t) ∨ (min c t = t ∧ max c t = c) := by
    rcases le_or_lt c t with h | h
    · left; exact ⟨min_eq_left h, max_eq_right h⟩
    · right; exact ⟨min_eq_right h.le, max_eq_left h.le⟩
  have hmm : min c t < max c t := by omega
  have hmw : max c t < w := by omega
  exact exchangeableEntry_eq hmm hor hmw (List.mem_range.mp hn)

lemma exch_fst_testBit_c {c t : ℕ} (n : ℕ) (hct : c ≠ t) :
    (exchBase n c t + 2 ^ c).testBit c = true :=
  testBit_add_two_pow_self (exchBase_testBit_left n hct)

lemma exch_fst_testBit_t {c t : ℕ} (n : ℕ) (hct : c ≠ t) :
    (exchBase n c t + 2 ^ c).testBit t = false := by
  rw [testBit_add_two_pow_of_ne (exchBase_testBit_left n hct) hct.symm]
  exact exchBase_testBit_right n hct

lemma exch_snd_testBit_t {c t : ℕ} (n : ℕ) (hct : c ≠ t) :
    (exchBase n c t + 2 ^ c + 2 ^ t).testBit t = true :=
  testBit_add_two_pow_self (exch_fst_testBit_t n hct)

lemma exch_snd_testBit_c {c t : ℕ} (n : ℕ) (hct : c ≠ t) :
    (exchBase n c t + 2 ^ c + 2 ^ t).testBit c = true := by
  rw [testBit_add_two_pow_of_ne (exch_fst_testBit_t n hct) hct]
  exact exch_fst_testBit_c n hct

lemma exch_snd_eq_xor {c t : ℕ} (n : ℕ) (hct : c ≠ t) :
    exchBase n c t + 2 ^ c + 2 ^ t = (exchBase n c t + 2 ^ c) ^^^ 2 ^ t :=
  add_two_pow_eq_xor t (exch_fst_testBit_t n hct)

lemma lawful_exchangeable_rows {w c t : ℕ} (hc : c < w) (ht : t < w) (hct : c ≠ t) :
    LawfulRows (find_exchangeable_rows w c t) (2 ^ w) := by
  rw [find_exchangeable_rows_eq hc ht hct]
  constructor
  · rw [List.pairwise_map]
    apply List.Pairwise.imp ?_ (List.pairwise_lt_range _)
    intro m n hmn
    refine ⟨?_, ?_, ?_, ?_⟩
    · intro h
      exact absurd (exchBase_injective (Nat.add_right_cancel h)) (by omega)
    · apply ne_of_testBit_ne
      rw [exch_fst_testBit_t m hct, exch_snd_testBit_t n hct]
      simp
    · apply ne_of_testBit_ne
      rw [exch_fst_testBit_t n hct, exch_snd_testBit_t m hct]
      simp
    · intro h
      exact absurd
        (exchBase_injective (Nat.add_right_cancel (Nat.add_right_cancel h))) (by omega)
  · intro p hp
    rw [List.mem_map] at hp
    obtain ⟨n, hn, rfl⟩ := hp
    have hnr : n < 2 ^ (w - 2) := List.mem_range.mp hn
    have hbase := exchBase_lt hc ht hct hnr
    have hcw : (2 : ℕ) ^ c < 2 ^ w := Nat.pow_lt_pow_right one_lt_two hc
    have htw : (2 : ℕ) ^ t < 2 ^ w := Nat.pow_lt_pow_right one_lt_two ht
    have hfst : exchBase n c t + 2 ^ c < 2 ^ w := by
      rw [add_two_pow_eq_xor c (exchBase_testBit_left n hct)]
      exact Nat.xor_lt_two_pow hbase hcw
    have hsnd : exchBase n c t + 2 ^ c + 2 ^ t < 2 ^ w := by
      rw [exch_snd_eq_xor n hct]
      exact Nat.xor_lt_two_pow hfst htw
    refine ⟨?_, hfst, hsnd⟩
    apply ne_of_testBit_ne
    rw [exch_fst_testBit_t n hct, exch_snd_testBit_t n hct]
    simp

/-! ### The state vector, its gates, and measurement -/

/-- Rust struct `StateVector { bases: Vec<Complex>, qubit_width: usize }`. -/
structure StateVector where
  bases : List ℂ
  qubit_width : ℕ

/-- Source: `StateVector::reset` — zero every amplitude in place, then set
the real part of amplitude 0 to 1. -/
noncomputable def StateVector.reset (sv : StateVector) : StateVector :=
  let zeroed := sv.bases.map (fun _ => (0 : ℂ))
  { sv with bases := zeroed.set 0 (Complex.mk 1 (zeroed.getD 0 0).im) }

/-- Source: `StateVector::new(qubit_width)` — `2^qubit_width` zero amplitudes,
then `reset`. -/
noncomputable def StateVector.new (qubit_width : ℕ) : StateVector :=
  StateVector.reset
    { bases := List.replicate (exp2 qubit_width) (Complex.mk 0 0),
      qubit_width := qubit_width }

/-- Source: `StateVector::cnot(control, target)` — swap the amplitudes of
every exchangeable row pair (`Vec::swap`). -/
noncomputable def StateVector.cnot (sv : StateVector) (control target : ℕ) : StateVector :=
  { sv with
    bases := applyPairs (fun a b => (b, a))
      (find_exchangeable_rows sv.qubit_width control target) sv.bases }

/-- Source: `fn e_power_to(x: f64) -> Complex { Complex::new(0.0, x).exp() }`. -/
noncomputable def e_power_to (x : ℝ) : ℂ := Complex.exp (Complex.mk 0 x)

/-- Source: `build_u(theta, phi, lambda)` — the 2×2 matrix
`[[cos(θ/2), −e^{iλ}·sin(θ/2)], [e^{iφ}·sin(θ/2), e^{i(φ+λ)}·cos(θ/2)]]`
returned as the 4-tuple `(m00, m01, m10, m11)`. -/
noncomputable def build_u (theta phi lambda : ℝ) : ℂ × ℂ × ℂ × ℂ :=
  (Complex.mk (Real.cos (theta / 2)) 0,
   -e_power_to lambda * (Real.sin (theta / 2) : ℂ),
   e_power_to phi * (Real.sin (theta / 2) : ℂ),
   e_power_to (phi + lambda) * (Real.cos (theta / 2) : ℂ))

/-- Source: `StateVector::u(theta, phi, lambda, target)` — apply the built
matrix to every target row pair. -/
noncomputable def StateVector.u (sv : StateVector) (theta phi lambda : ℝ)
    (target : ℕ) : StateVector :=
  let u_matrix := build_u theta phi lambda
  { sv with
    bases := applyPairs
      (fun a b => (u_matrix.1 * a + u_matrix.2.1 * b,
                   u_matrix.2.2.1 * a + u_matrix.2.2.2 * b))
      (find_target_rows sv.qubit_width target) sv.bases }

/-- Source: `StateVector::probabilities` — `|amplitude|²` per basis index, in
amplitude order. -/
noncomputable def StateVector.probabilities (sv : StateVector) : List ℝ :=
  sv.bases.map Complex.normSq

/-- Source: the accumulation loop of `StateVector::expectation_values` for one
qubit, `mask = 1 << i`: add the probability when `index & mask != 0`,
subtract it otherwise. -/
noncomputable def expectationSum (probabilities : List ℝ) (mask : ℕ) : ℝ :=
  probabilities.enum.foldl
    (fun sum p => if p.1 &&& mask ≠ 0 then sum + p.2 else sum - p.2) 0

/-- Source: `StateVector::expectation_values`, including the final clamp
`f64::max(0.0, f64::min(1.0, sum))`. -/
noncomputable def StateVector.expectation_values (sv : StateVector) : List ℝ :=
  (List.range sv.qubit_width).map
    (fun i => max 0 (min 1 (expectationSum sv.probabilities (1 <<< i))))

/-- Rust struct `Measurement<'a>`: the mutably borrowed amplitudes, the two
branch probabilities `chances: [f64; 2]`, and the target qubit. -/
structure Measurement where
  bases : List ℂ
  chances : List ℝ
  target : ℕ

/-- Source: `Measurement::new` — accumulate `|amplitude|²` over every
enumerated index whose target bit is 0; store `[p0, 1 − p0]`. -/
noncomputable def Measurement.new (bases : List ℂ) (target : ℕ) : Measurement :=
  let chance_universe_0 :=
    bases.enum.foldl
      (fun acc p => if check_bit p.1 target = 0 then acc + Complex.normSq p.2 else acc) 0
  { bases := bases,
    chances := [chance_universe_0, 1 - chance_universe_0],
    target := target }

/-- Source: `Measurement::collapse(fate)`.  The Rust function starts with
`assert!((0.0..1.0).contains(&fate), ...)`; the panic is modelled by returning
`none` together with the state at the panic point (the borrowed amplitudes,
still untouched because the assertion precedes the mutation loop).  On success
the loop keeps and renormalizes the amplitudes whose target bit equals the
chosen branch, zeroes the rest, and `value != 0` is returned. -/
noncomputable def Measurement.collapse (m : Measurement) (fate : ℝ) :
    Measurement × Option Bool :=
  if 0 ≤ fate ∧ fate < 1 then
    let value : ℕ := if fate ≥ m.chances.getD 0 0 then 1 else 0
    let normalization_factor := Real.sqrt (m.chances.getD value 0)
    let collapsed := m.bases.enum.map
      (fun p =>
        if check_bit p.1 m.target = value then p.2 / (normalization_factor : ℂ) else 0)
    ({ m with bases := collapsed }, some (value != 0))
  else (m, none)

/-! ### Characterization of `Measurement` -/

lemma getD_enum_map (bases : List ℂ) (f : ℕ × ℂ → ℂ) {i : ℕ} (h : i < bases.length) :
    (bases.enum.map f).getD i 0 = f (i, bases.getD i 0) := by
  rw [enum_map_eq_map_range bases f 0,
    List.getD_eq_getElem _ _ (by simpa using h)]
  simp

lemma measurement_chance_eq (bases : List ℂ) (target : ℕ) :
    (Measurement.new bases target).chances.getD 0 0 =
      ∑ i ∈ Finset.range bases.length,
        (if i.testBit target = false then Complex.normSq (bases.getD i 0) else 0) := by
  unfold Measurement.new
  simp only [List.getD_cons_zero]
  have hstep : (fun (acc : ℝ) (p : ℕ × ℂ) =>
      if check_bit p.1 target = 0 then acc + Complex.normSq p.2 else acc) =
      (fun acc p => acc + if check_bit p.1 target = 0 then Complex.normSq p.2 else 0) := by
    funext acc p
    by_cases h : check_bit p.1 target = 0 <;> simp [h]
  rw [hstep, foldl_add_eq, zero_add,
    enum_map_eq_map_range bases
      (fun p => if check_bit p.1 target = 0 then Complex.normSq p.2 else 0) 0,
    sum_map_range]
  apply Finset.sum_congr rfl
  intro i _
  exact if_congr (check_bit_eq_zero i target) rfl rfl

lemma measurement_chance_one_eq (bases : List ℂ) (target : ℕ) :
    (Measurement.new bases target).chances.getD 1 0 =
      1 - ∑ i ∈ Finset.range bases.length,
        (if i.testBit target = false then Complex.normSq (bases.getD i 0) else 0) := by
  rw [← measurement_chance_eq bases target]
  rfl

lemma measurement_new_bases (bases : List ℂ) (target : ℕ) :
    (Measurement.new bases target).bases = bases := rfl

lemma measurement_new_target (bases : List ℂ) (target : ℕ) :
    (Measurement.new bases target).target = target := rfl

/-- C1: with `p0` the total probability of the indices whose target bit is 0,
a collapse with in-range `fate` selects branch 1 exactly when `fate ≥ p0`,
zeroes every amplitude whose target bit disagrees with the chosen branch,
divides every surviving amplitude by the square root of the chosen branch's
probability (`1 − p0` for branch 1, `p0` for branch 0), and returns `true`
exactly when branch 1 was chosen. -/
theorem C1_measurement_collapse (bases : List ℂ) (target : ℕ) (fate : ℝ)
    (h0 : 0 ≤ fate) (h1 : fate < 1) :
    (((Measurement.new bases target).collapse fate).2 = some true ↔
      (∑ i ∈ Finset.range bases.length,
        (if i.testBit target = false then Complex.normSq (bases.getD i 0) else 0)) ≤ fate) ∧
    ((Measurement.new bases target).collapse fate).1.bases.length = bases.length ∧
    ∀ i < bases.length,
      ((Measurement.new bases target).collapse fate).1.bases.getD i 0 =
        if (i.testBit target = true ↔
            (∑ j ∈ Finset.range bases.length,
              (if j.testBit target = false then Complex.normSq (bases.getD j 0) else 0)) ≤ fate)
        then bases.getD i 0 /
          ((Real.sqrt (if (∑ j ∈ Finset.range bases.length,
              (if j.testBit target = false then Complex.normSq (bases.getD j 0) else 0)) ≤ fate
            then 1 - ∑ j ∈ Finset.range bases.length,
              (if j.testBit target = false then Complex.normSq (bases.getD j 0) else 0)
            else ∑ j ∈ Finset.range bases.length,
              (if j.testBit target = false then Complex.normSq (bases.getD j 0) else 0))) : ℂ)
        else 0 := by
  have hin : 0 ≤ fate ∧ fate < 1 := ⟨h0, h1⟩
  unfold Measurement.collapse
  rw [if_pos hin]
  simp only [measurement_new_bases, measurement_new_target]
  by_cases hbr : (∑ i ∈ Finset.range bases.length,
      (if i.testBit target = false then Complex.normSq (bases.getD i 0) else 0)) ≤ fate
  · have hge : fate ≥ (Measurement.new bases target).chances.getD 0 0 := by
      rw [measurement_chance_eq]
      exact hbr
    rw [if_pos hge]
    refine ⟨iff_of_true (by simp) hbr, by simp, ?_⟩
    intro i hi
    rw [getD_enum_map bases _ hi]
    simp only [measurement_chance_one_eq]
    have hcond : (check_bit i target = 1) ↔
        (i.testBit target = true ↔ (∑ j ∈ Finset.range bases.length,
          (if j.testBit target = false then Complex.normSq (bases.getD j 0) else 0)) ≤ fate) := by
      rw [check_bit_eq_one]
      exact ⟨fun h => iff_of_true h hbr, fun h => h.mpr hbr⟩
    rw [if_congr hcond rfl rfl, if_pos hbr]
  · have hlt : ¬ (fate ≥ (Measurement.new bases target).chances.getD 0 0) := by
      rw [measurement_chance_eq]
      exact hbr
    rw [if_neg hlt]
    refine ⟨iff_of_false (by simp) hbr, by simp, ?_⟩
    intro i hi
    rw [getD_enum_map bases _ hi]
    simp only [measurement_chance_eq]
    have hcond : (check_bit i target = 0) ↔
        (i.testBit target = true ↔ (∑ j ∈ Finset.range bases.length,
          (if j.testBit target = false then Complex.normSq (bases.getD j 0) else 0)) ≤ fate) := by
      rw [check_bit_eq_zero]
      constructor
      · intro h
        constructor
        · intro hc; rw [hc] at h; cases h
        · intro hc; exact absurd hc hbr
      · intro h
        cases hb : i.testBit target
        · rfl
        · exact absurd (h.mp hb) hbr
    rw [if_congr hcond rfl rfl, if_neg hbr]

/-- Concrete amplitude list used by the verification witnesses: the 1-qubit
basis state |0⟩ written over two amplitudes. -/
noncomputable def witnessBases : List ℂ := [Complex.mk 1 0, Complex.mk 0 0]

/-- Witness for C1 at `bases = witnessBases`, `target = 0`, `fate = 1/2`: the
hypotheses `0 ≤ 1/2` and `1/2 < 1` hold and the collapse behaves as stated. -/
theorem C1_measurement_collapse_witness :
    (0 : ℝ) ≤ 1 / 2 ∧ (1 / 2 : ℝ) < 1 ∧
    ((((Measurement.new witnessBases 0).collapse (1 / 2)).2 = some true ↔
      (∑ i ∈ Finset.range witnessBases.length,
        (if i.testBit 0 = false then Complex.normSq (witnessBases.getD i 0) else 0)) ≤ 1 / 2) ∧
    ((Measurement.new witnessBases 0).collapse (1 / 2)).1.bases.length =
      witnessBases.length ∧
    ∀ i < witnessBases.length,
      ((Measurement.new witnessBases 0).collapse (1 / 2)).1.bases.getD i 0 =
        if (i.testBit 0 = true ↔
            (∑ j ∈ Finset.range witnessBases.length,
              (if j.testBit 0 = false then Complex.normSq (witnessBases.getD j 0) else 0)) ≤ 1 / 2)
        then witnessBases.getD i 0 /
          ((Real.sqrt (if (∑ j ∈ Finset.range witnessBases.length,
              (if j.testBit 0 = false then Complex.normSq (witnessBases.getD j 0) else 0)) ≤ 1 / 2
            then 1 - ∑ j ∈ Finset.range witnessBases.length,
              (if j.testBit 0 = false then Complex.normSq (witnessBases.getD j 0) else 0)
            else ∑ j ∈ Finset.range witnessBases.length,
              (if j.testBit 0 = false then Complex.normSq (witnessBases.getD j 0) else 0))) : ℂ)
        else 0) :=
  ⟨by norm_num, by norm_num,
    C1_measurement_collapse witnessBases 0 (1 / 2) (by norm_num) (by norm_num)⟩

/-- C5: measurement collapse fails fatally (the modelled panic, `none`) if
and only if the supplied sample `fate` lies outside `[0, 1)`; inside the
range it always succeeds with a boolean result. -/
theorem C5_collapse_panic_iff (bases : List ℂ) (target : ℕ) (fate : ℝ) :
    (((Measurement.new bases target).collapse fate).2 = none ↔
      ¬ (0 ≤ fate ∧ fate < 1)) ∧
    (∀ h : 0 ≤ fate ∧ fate < 1,
      ((Measurement.new bases target).collapse fate).2 =
        some (decide (fate ≥ (Measurement.new bases target).chances.getD 0 0))) := by
  constructor
  · unfold Measurement.collapse
    by_cases h : 0 ≤ fate ∧ fate < 1
    · rw [if_pos h]
      simp [h]
    · rw [if_neg h]
      simp [h]
  · intro h
    unfold Measurement.collapse
    rw [if_pos h]
    by_cases hbr : fate ≥ (Measurement.new bases target).chances.getD 0 0
    · rw [if_pos hbr]
      simp only [Option.some.injEq]
      rw [decide_eq_true hbr]
      rfl
    · rw [if_neg hbr]
      simp only [Option.some.injEq]
      rw [decide_eq_false hbr]
      rfl

/-- C10: a collapse invoked with `fate` outside `[0, 1)` panics before the
mutation loop runs, so the amplitude vector observed at the failure is
exactly the input amplitude vector. -/
theorem C10_collapse_atomic (bases : List ℂ) (target : ℕ) (fate : ℝ)
    (h : ¬ (0 ≤ fate ∧ fate < 1)) :
    (((Measurement.new bases target).collapse fate).1.bases = bases) ∧
    ((Measurement.new bases target).collapse fate).2 = none := by
  unfold Measurement.collapse
  rw [if_neg h]
  exact ⟨rfl, rfl⟩

/-- Witness for C10 at `bases = [1]`, `target = 0`, `fate = 2`. -/
theorem C10_collapse_atomic_witness :
    ¬ ((0 : ℝ) ≤ 2 ∧ (2 : ℝ) < 1) ∧
    ((((Measurement.new [Complex.mk 1 0] 0).collapse 2).1.bases = [Complex.mk 1 0]) ∧
      ((Measurement.new [Complex.mk 1 0] 0).collapse 2).2 = none) :=
  ⟨by norm_num, C10_collapse_atomic [Complex.mk 1 0] 0 2 (by norm_num)⟩

/-- Witness for C5 at `bases = witnessBases`, `target = 0`, `fate = 1/2`. -/
theorem C5_collapse_panic_iff_witness :
    ((((Measurement.new witnessBases 0).collapse (1 / 2)).2 = none ↔
      ¬ ((0 : ℝ) ≤ 1 / 2 ∧ (1 / 2 : ℝ) < 1)) ∧
    (∀ _h : (0 : ℝ) ≤ 1 / 2 ∧ (1 / 2 : ℝ) < 1,
      ((Measurement.new witnessBases 0).collapse (1 / 2)).2 =
        some (decide ((1 / 2 : ℝ) ≥ (Measurement.new witnessBases 0).chances.getD 0 0)))) :=
  C5_collapse_panic_iff witnessBases 0 (1 / 2)

/-! ### Expectation values -/

lemma and_mask_ne_zero_iff (j i : ℕ) : (j &&& (1 <<< i) ≠ 0) ↔ j.testBit i = true := by
  rw [Nat.shiftLeft_eq, one_mul, Nat.and_two_pow]
  cases h : j.testBit i
  · simp
  · simp [(Nat.two_pow_pos i).ne']

lemma probabilities_getD (sv : StateVector) {j : ℕ} (hj : j < sv.bases.length) :
    sv.probabilities.getD j 0 = Complex.normSq (sv.bases.getD j 0) := by
  unfold StateVector.probabilities
  have h0 : Complex.normSq (0 : ℂ) = 0 := by simp
  calc (sv.bases.map Complex.normSq).getD j 0
      = (sv.bases.map Complex.normSq).getD j (Complex.normSq 0) := by rw [h0]
    _ = Complex.normSq (sv.bases.getD j 0) := List.getD_map sv.bases 0 Complex.normSq

lemma expectationSum_eq (sv : StateVector) (i : ℕ) :
    expectationSum sv.probabilities (1 <<< i) =
      ∑ j ∈ Finset.range sv.bases.length,
        (if j.testBit i = true then Complex.normSq (sv.bases.getD j 0)
         else - Complex.normSq (sv.bases.getD j 0)) := by
  unfold expectationSum
  have hstep : (fun (sum : ℝ) (p : ℕ × ℝ) =>
      if p.1 &&& (1 <<< i) ≠ 0 then sum + p.2 else sum - p.2) =
      (fun sum p => sum + if p.1 &&& (1 <<< i) ≠ 0 then p.2 else - p.2) := by
    funext sum p
    by_cases h : p.1 &&& (1 <<< i) ≠ 0
    · simp [h]
    · simp [h, sub_eq_add_neg]
  rw [hstep, foldl_add_eq, zero_add,
    enum_map_eq_map_range sv.probabilities
      (fun p => if p.1 &&& (1 <<< i) ≠ 0 then p.2 else - p.2) 0,
    sum_map_range]
  have hlen : sv.probabilities.length = sv.bases.length := by
    unfold StateVector.probabilities
    simp
  rw [hlen]
  apply Finset.sum_congr rfl
  intro j hj
  have hjlt : j < sv.bases.length := Finset.mem_range.mp hj
  rw [probabilities_getD sv hjlt]
  exact if_congr (and_mask_ne_zero_iff j i) rfl rfl

/-- C7: `expectation_values` returns one value per qubit, each equal to the
signed sum of the basis-index probabilities according to that qubit's bit in
each basis index (positive when the bit is set, negative otherwise), clamped
into `[0, 1]`. -/
theorem C7_expectation_values (sv : StateVector) :
    sv.expectation_values.length = sv.qubit_width ∧
    ∀ i < sv.qubit_width,
      sv.expectation_values.getD i 0 =
        max 0 (min 1 (∑ j ∈ Finset.range sv.bases.length,
          (if j.testBit i = true then Complex.normSq (sv.bases.getD j 0)
           else - Complex.normSq (sv.bases.getD j 0)))) := by
  constructor
  · unfold StateVector.expectation_values
    simp
  · intro i hi
    unfold StateVector.expectation_values
    rw [← expectationSum_eq sv i]
    rw [List.getD_eq_getElem _ _ (by simpa using hi)]
    simp

/-- Witness for C7 at the freshly created 1-qubit state vector, qubit 0. -/
theorem C7_expectation_values_witness :
    0 < (StateVector.new 1).qubit_width ∧
    (StateVector.new 1).expectation_values.getD 0 0 =
      max 0 (min 1 (∑ j ∈ Finset.range (StateVector.new 1).bases.length,
        (if j.testBit 0 = true then Complex.normSq ((StateVector.new 1).bases.getD j 0)
         else - Complex.normSq ((StateVector.new 1).bases.getD j 0)))) := by
  have hq : 0 < (StateVector.new 1).qubit_width := by
    show 0 < 1
    norm_num
  exact ⟨hq, (C7_expectation_values (StateVector.new 1)).2 0 hq⟩

/-! ### The `u` gate with zero angles -/

lemma set_getD_self {l : List ℂ} {i : ℕ} (h : i < l.length) :
    l.set i (l.getD i 0) = l := by
  apply List.ext_getElem (by simp)
  intro j h1 h2
  by_cases hij : i = j
  · subst hij
    rw [List.getElem_set_self, List.getD_eq_getElem l 0 h]
  · rw [List.getElem_set_ne hij]

lemma applyPairs_id :
    ∀ (rows : List (ℕ × ℕ)) (bases : List ℂ),
      (∀ p ∈ rows, p.1 < bases.length ∧ p.2 < bases.length) →
      applyPairs (fun a b => (a, b)) rows bases = bases := by
  intro rows
  induction rows with
  | nil => intro bases _; rfl
  | cons p rest ih =>
      intro bases hmem
      have hp := hmem p (List.mem_cons_self p rest)
      rw [applyPairs_cons]
      rw [set_getD_self hp.1, set_getD_self hp.2]
      exact ih bases (fun q hq => hmem q (List.mem_cons_of_mem p hq))

lemma build_u_zero : build_u 0 0 0 = (1, 0, 0, 1) := by
  have h00 : Complex.mk 0 (0 + 0) = 0 := by simp [Complex.ext_iff]
  have h01 : Complex.mk 0 0 = 0 := by simp [Complex.ext_iff]
  unfold build_u e_power_to
  rw [h00, h01, Complex.exp_zero]
  norm_num [Complex.ext_iff, Real.cos_zero, Real.sin_zero]

/-- C6: applying `u(0, 0, 0, target)` leaves every amplitude unchanged — the
matrix built by `build_u` at the zero angles is the identity. -/
theorem C6_u_identity (sv : StateVector) (target : ℕ)
    (hlen : sv.bases.length = 2 ^ sv.qubit_width) (ht : target < sv.qubit_width) :
    build_u 0 0 0 = (1, 0, 0, 1) ∧ sv.u 0 0 0 target = sv := by
  refine ⟨build_u_zero, ?_⟩
  have hfun : (fun (a b : ℂ) =>
      ((build_u 0 0 0).1 * a + (build_u 0 0 0).2.1 * b,
       (build_u 0 0 0).2.2.1 * a + (build_u 0 0 0).2.2.2 * b)) =
      (fun (a b : ℂ) => (a, b)) := by
    rw [build_u_zero]
    funext a b
    simp
  have hmem : ∀ p ∈ find_target_rows sv.qubit_width target,
      p.1 < sv.bases.length ∧ p.2 < sv.bases.length := by
    intro p hp
    have hb := (lawful_target_rows ht).2 p hp
    rw [hlen]
    exact ⟨hb.2.1, hb.2.2⟩
  show StateVector.mk
      (applyPairs (fun a b =>
        ((build_u 0 0 0).1 * a + (build_u 0 0 0).2.1 * b,
         (build_u 0 0 0).2.2.1 * a + (build_u 0 0 0).2.2.2 * b))
        (find_target_rows sv.qubit_width target) sv.bases)
      sv.qubit_width = sv
  rw [hfun, applyPairs_id _ _ hmem]

/-- Witness for C6 at the freshly created 1-qubit state vector, target 0. -/
theorem C6_u_identity_witness :
    (StateVector.new 1).bases.length = 2 ^ (StateVector.new 1).qubit_width ∧
    0 < (StateVector.new 1).qubit_width ∧
    (build_u 0 0 0 = (1, 0, 0, 1) ∧ (StateVector.new 1).u 0 0 0 0 = StateVector.new 1) := by
  have hlen : (StateVector.new 1).bases.length = 2 ^ (StateVector.new 1).qubit_width := by
    show (((List.replicate (exp2 1) (Complex.mk 0 0)).map (fun _ => (0 : ℂ))).set 0 _).length = 2 ^ 1
    simp [exp2_eq]
  have ht : 0 < (StateVector.new 1).qubit_width := by
    show 0 < 1
    norm_num
  exact ⟨hlen, ht, C6_u_identity (StateVector.new 1) 0 hlen ht⟩

/-! ### Unitarity -/

lemma normSq_e_power_to (x : ℝ) : Complex.normSq (e_power_to x) = 1 := by
  unfold e_power_to
  have h : Complex.mk 0 x = (x : ℂ) * Complex.I := by
    simp [Complex.ext_iff]
  rw [h, ← Complex.sq_abs, Complex.abs_exp_ofReal_mul_I]
  norm_num

lemma build_u_cross (theta phi lambda : ℝ) :
    (build_u theta phi lambda).1 * (starRingEnd ℂ) (build_u theta phi lambda).2.1 +
      (build_u theta phi lambda).2.2.1 * (starRingEnd ℂ) (build_u theta phi lambda).2.2.2 = 0 := by
  unfold build_u e_power_to
  have hmkc : Complex.mk (Real.cos (theta / 2)) 0 = ((Real.cos (theta / 2) : ℝ) : ℂ) := by
    rw [Complex.ext_iff]
    exact ⟨rfl, rfl⟩
  have hmk : ∀ r : ℝ, Complex.mk 0 r = (r : ℂ) * Complex.I := by
    intro r
    simp [Complex.ext_iff]
  rw [hmkc, hmk, hmk, hmk]
  simp only [map_mul, map_neg, Complex.conj_ofReal, ← Complex.exp_conj, Complex.conj_I]
  have hmul : Complex.exp ((phi : ℂ) * Complex.I) *
      Complex.exp (((phi + lambda : ℝ) : ℂ) * -Complex.I) =
      Complex.exp ((lambda : ℂ) * -Complex.I) := by
    rw [← Complex.exp_add]
    congr 1
    push_cast
    ring
  linear_combination ((Real.sin (theta / 2) : ℂ) * (Real.cos (theta / 2) : ℂ)) * hmul

lemma build_u_unitary (theta phi lambda : ℝ) (a b : ℂ) :
    Complex.normSq ((build_u theta phi lambda).1 * a + (build_u theta phi lambda).2.1 * b) +
      Complex.normSq ((build_u theta phi lambda).2.2.1 * a +
        (build_u theta phi lambda).2.2.2 * b) =
    Complex.normSq a + Complex.normSq b := by
  have hsc : Real.sin (theta / 2) * Real.sin (theta / 2) +
      Real.cos (theta / 2) * Real.cos (theta / 2) = 1 := by
    have h := Real.sin_sq_add_cos_sq (theta / 2)
    nlinarith [h]
  have h00 : Complex.normSq (build_u theta phi lambda).1 =
      Real.cos (theta / 2) * Real.cos (theta / 2) := by
    show Complex.normSq (Complex.mk (Real.cos (theta / 2)) 0) = _
    rw [Complex.normSq_mk]
    ring
  have h01 : Complex.normSq (build_u theta phi lambda).2.1 =
      Real.sin (theta / 2) * Real.sin (theta / 2) := by
    show Complex.normSq (-e_power_to lambda * ((Real.sin (theta / 2) : ℝ) : ℂ)) = _
    rw [Complex.normSq_mul, Complex.normSq_neg, normSq_e_power_to, Complex.normSq_ofReal]
    ring
  have h10 : Complex.normSq (build_u theta phi lambda).2.2.1 =
      Real.sin (theta / 2) * Real.sin (theta / 2) := by
    show Complex.normSq (e_power_to phi * ((Real.sin (theta / 2) : ℝ) : ℂ)) = _
    rw [Complex.normSq_mul, normSq_e_power_to, Complex.normSq_ofReal]
    ring
  have h11 : Complex.normSq (build_u theta phi lambda).2.2.2 =
      Real.cos (theta / 2) * Real.cos (theta / 2) := by
    show Complex.normSq (e_power_to (phi + lambda) * ((Real.cos (theta / 2) : ℝ) : ℂ)) = _
    rw [Complex.normSq_mul, normSq_e_power_to, Complex.normSq_ofReal]
    ring
  have hcross : ((build_u theta phi lambda).1 * a) *
        (starRingEnd ℂ) ((build_u theta phi lambda).2.1 * b) +
      ((build_u theta phi lambda).2.2.1 * a) *
        (starRingEnd ℂ) ((build_u theta phi lambda).2.2.2 * b) =
      ((build_u theta phi lambda).1 * (starRingEnd ℂ) (build_u theta phi lambda).2.1 +
        (build_u theta phi lambda).2.2.1 *
          (starRingEnd ℂ) (build_u theta phi lambda).2.2.2) * (a * (starRingEnd ℂ) b) := by
    simp only [map_mul]
    ring
  rw [Complex.normSq_add, Complex.normSq_add, Complex.normSq_mul, Complex.normSq_mul,
    Complex.normSq_mul, Complex.normSq_mul, h00, h01, h10, h11]
  have hre : 2 * (((build_u theta phi lambda).1 * a) *
        (starRingEnd ℂ) ((build_u theta phi lambda).2.1 * b)).re +
      2 * (((build_u theta phi lambda).2.2.1 * a) *
        (starRingEnd ℂ) ((build_u theta phi lambda).2.2.2 * b)).re = 0 := by
    have hsum : (((build_u theta phi lambda).1 * a) *
          (starRingEnd ℂ) ((build_u theta phi lambda).2.1 * b) +
        ((build_u theta phi lambda).2.2.1 * a) *
          (starRingEnd ℂ) ((build_u theta phi lambda).2.2.2 * b)) = 0 := by
      rw [hcross, build_u_cross]
      ring
    have h0 := congrArg Complex.re hsum
    rw [Complex.add_re, Complex.zero_re] at h0
    linarith [h0]
  linear_combination hre + (Complex.normSq a + Complex.normSq b) * hsc

/-! ### The gate instruction stream and the norm invariant -/

/-- The gate instructions the interpreter feeds the engine: `cnot` and `u`. -/
inductive Op where
  | cnot (control target : ℕ)
  | u (theta phi lambda : ℝ) (target : ℕ)

/-- Apply one gate to the state vector. -/
noncomputable def applyOp (sv : StateVector) : Op → StateVector
  | Op.cnot control target => sv.cnot control target
  | Op.u theta phi lambda target => sv.u theta phi lambda target

/-- Apply a finite gate sequence left to right. -/
noncomputable def applyOps (sv : StateVector) (ops : List Op) : StateVector :=
  ops.foldl applyOp sv

/-- In-range (and, for `cnot`, distinct) qubit arguments at width `w`. -/
def Op.wellFormed (w : ℕ) : Op → Prop
  | Op.cnot control target => control < w ∧ target < w ∧ control ≠ target
  | Op.u _ _ _ target => target < w

lemma applyOp_qubit_width (sv : StateVector) (op : Op) :
    (applyOp sv op).qubit_width = sv.qubit_width := by
  cases op <;> rfl

lemma applyOp_length (sv : StateVector) (op : Op) :
    (applyOp sv op).bases.length = sv.bases.length := by
  cases op with
  | cnot control target =>
      show (applyPairs (fun a b => (b, a))
        (find_exchangeable_rows sv.qubit_width control target) sv.bases).length
        = sv.bases.length
      exact applyPairs_length _ _ _
  | u theta phi lambda target =>
      show (applyPairs (fun a b =>
          ((build_u theta phi lambda).1 * a + (build_u theta phi lambda).2.1 * b,
           (build_u theta phi lambda).2.2.1 * a + (build_u theta phi lambda).2.2.2 * b))
        (find_target_rows sv.qubit_width target) sv.bases).length = sv.bases.length
      exact applyPairs_length _ _ _

lemma applyOp_normSum (sv : StateVector) (op : Op)
    (hlen : sv.bases.length = 2 ^ sv.qubit_width)
    (hwf : op.wellFormed sv.qubit_width) :
    normSum (applyOp sv op).bases = normSum sv.bases := by
  cases op with
  | cnot control target =>
      obtain ⟨hc, ht, hct⟩ := hwf
      show normSum (applyPairs (fun a b => (b, a))
        (find_exchangeable_rows sv.qubit_width control target) sv.bases) = normSum sv.bases
      apply applyPairs_normSum _ (fun a b => by ring)
      rw [hlen]
      exact lawful_exchangeable_rows hc ht hct
  | u theta phi lambda target =>
      show normSum (applyPairs (fun a b =>
          ((build_u theta phi lambda).1 * a + (build_u theta phi lambda).2.1 * b,
           (build_u theta phi lambda).2.2.1 * a + (build_u theta phi lambda).2.2.2 * b))
        (find_target_rows sv.qubit_width target) sv.bases) = normSum sv.bases
      apply applyPairs_normSum _ (fun a b => build_u_unitary theta phi lambda a b)
      rw [hlen]
      exact lawful_target_rows hwf

lemma applyOps_invariant :
    ∀ (ops : List Op) (sv : StateVector),
      sv.bases.length = 2 ^ sv.qubit_width →
      (∀ op ∈ ops, op.wellFormed sv.qubit_width) →
      (applyOps sv ops).qubit_width = sv.qubit_width ∧
      (applyOps sv ops).bases.length = 2 ^ sv.qubit_width ∧
      normSum (applyOps sv ops).bases = normSum sv.bases := by
  intro ops
  induction ops with
  | nil => intro sv hlen _; exact ⟨rfl, hlen, rfl⟩
  | cons op rest ih =>
      intro sv hlen hwf
      have hstep : applyOps sv (op :: rest) = applyOps (applyOp sv op) rest := rfl
      have h1 : (applyOp sv op).qubit_width = sv.qubit_width := applyOp_qubit_width sv op
      have h2 : (applyOp sv op).bases.length = 2 ^ (applyOp sv op).qubit_width := by
        rw [applyOp_length, h1, hlen]
      have h3 := ih (applyOp sv op) h2
        (fun o ho => h1 ▸ hwf o (List.mem_cons_of_mem op ho))
      rw [hstep]
      refine ⟨h3.1.trans h1, by rw [h3.2.1, h1], ?_⟩
      rw [h3.2.2, applyOp_normSum sv op hlen (hwf op (List.mem_cons_self op rest))]

lemma normSum_new (w : ℕ) : normSum (StateVector.new w).bases = 1 := by
  unfold StateVector.new StateVector.reset
  simp only [List.map_replicate]
  have hpos : 0 < exp2 w := by
    rw [exp2_eq]
    exact Nat.two_pow_pos w
  have hget : (List.replicate (exp2 w) (0 : ℂ)).getD 0 0 = 0 := by
    rw [List.getD_eq_getElem _ _ (by simpa using hpos)]
    simp
  have hzero : normSum (List.replicate (exp2 w) (0 : ℂ)) = 0 := by
    unfold normSum
    rw [List.map_replicate]
    simp
  rw [normSum_set (by simpa using hpos), hzero, hget]
  have h1 : Complex.mk 1 (0 : ℂ).im = 1 := by
    simp [Complex.ext_iff]
  rw [h1]
  simp

/-- C2: starting from `new(w)`, any finite sequence of well-formed `cnot` and
`u` operations leaves the total Born-rule probability equal to 1 within
tolerance `1e-9` (the embedding over exact reals preserves it exactly). -/
theorem C2_unitarity (w : ℕ) (ops : List Op)
    (hops : ∀ op ∈ ops, op.wellFormed w) :
    |normSum (applyOps (StateVector.new w) ops).bases - 1| ≤ 1e-9 := by
  have hw : (StateVector.new w).qubit_width = w := rfl
  have hlen : (StateVector.new w).bases.length = 2 ^ (StateVector.new w).qubit_width := by
    show (((List.replicate (exp2 w) (Complex.mk 0 0)).map (fun _ => (0 : ℂ))).set 0 _).length
      = 2 ^ w
    simp [exp2_eq]
  have h := applyOps_invariant ops (StateVector.new w) hlen (by rw [hw]; exact hops)
  rw [h.2.2, normSum_new]
  norm_num

/-- Witness for C2 at `w = 2` and the op list `[cnot 0 1, u(1,2,3,0)]`. -/
theorem C2_unitarity_witness :
    (∀ op ∈ [Op.cnot 0 1, Op.u 1 2 3 0], op.wellFormed 2) ∧
    |normSum (applyOps (StateVector.new 2) [Op.cnot 0 1, Op.u 1 2 3 0]).bases - 1| ≤ 1e-9 := by
  have hops : ∀ op ∈ [Op.cnot 0 1, Op.u 1 2 3 0], op.wellFormed 2 := by
    intro op hop
    rcases List.mem_cons.mp hop with rfl | hop2
    · exact ⟨by norm_num, by norm_num, by norm_num⟩
    · rcases List.mem_cons.mp hop2 with rfl | hop3
      · show (0 : ℕ) < 2
        norm_num
      · cases hop3
  exact ⟨hops, C2_unitarity 2 [Op.cnot 0 1, Op.u 1 2 3 0] hops⟩

/-! ### The cnot gate: exact pair structure and involution -/

lemma cnot_qubit_width (sv : StateVector) (c t : ℕ) :
    (sv.cnot c t).qubit_width = sv.qubit_width := rfl

lemma cnot_length (sv : StateVector) (c t : ℕ) :
    (sv.cnot c t).bases.length = sv.bases.length := by
  show (applyPairs (fun a b => (b, a))
    (find_exchangeable_rows sv.qubit_width c t) sv.bases).length = sv.bases.length
  exact applyPairs_length _ _ _

lemma removeBit_testBit_lt {q p : ℕ} (m : ℕ) (h : q < p) :
    (removeBit m p).testBit q = m.testBit q := by
  unfold removeBit
  rw [add_comm, Nat.testBit_mul_pow_two_add _ (Nat.mod_lt _ (Nat.two_pow_pos p)), if_pos h,
    Nat.testBit_mod_two_pow]
  simp [h]

lemma exch_mem_of_bits {w c t : ℕ} (hc : c < w) (ht : t < w) (hct : c ≠ t)
    {a : ℕ} (ha : a < 2 ^ w) (hac : a.testBit c = true) (hat : a.testBit t = false) :
    (a, a ^^^ 2 ^ t) ∈ find_exchangeable_rows w c t := by
  rw [find_exchangeable_rows_eq hc ht hct]
  have hbounds : min c t < max c t ∧ max c t < w ∧ min c t ≤ w - 2 ∧ max c t ≤ w - 1 := by
    rcases le_or_lt c t with h | h
    · rw [min_eq_left h, max_eq_right h]; omega
    · rw [min_eq_right h.le, max_eq_left h.le]; omega
  set a0 := a ^^^ 2 ^ c with ha0
  have ha0c : a0.testBit c = false := by
    rw [ha0, Nat.testBit_xor, hac, Nat.testBit_two_pow]
    simp
  have ha0t : a0.testBit t = false := by
    rw [ha0, Nat.testBit_xor, hat, Nat.testBit_two_pow]
    have hne : ¬ (c = t) := hct
    simp [hne]
  have ha0u : a0.testBit (min c t) = false := by
    rcases le_or_lt c t with h | h
    · rw [min_eq_left h]; exact ha0c
    · rw [min_eq_right h.le]; exact ha0t
  have ha0v : a0.testBit (max c t) = false := by
    rcases le_or_lt c t with h | h
    · rw [max_eq_right h]; exact ha0t
    · rw [max_eq_left h.le]; exact ha0c
  have ha0lt : a0 < 2 ^ w := by
    rw [ha0]
    exact Nat.xor_lt_two_pow ha (Nat.pow_lt_pow_right one_lt_two hc)
  have hw1 : w - 1 + 1 = w := by omega
  have hw2 : w - 2 + 1 = w - 1 := by omega
  have hrv : removeBit a0 (max c t) < 2 ^ (w - 1) := by
    apply removeBit_lt _ hbounds.2.2.2
    rw [hw1]
    exact ha0lt
  have hnlt : removeBit (removeBit a0 (max c t)) (min c t) < 2 ^ (w - 2) := by
    apply removeBit_lt _ hbounds.2.2.1
    rw [hw2]
    exact hrv
  have hbase : exchBase (removeBit (removeBit a0 (max c t)) (min c t)) c t = a0 := by
    unfold exchBase
    rw [insertBit_removeBit (by
      rw [removeBit_testBit_lt a0 hbounds.1]
      exact ha0u)]
    exact insertBit_removeBit ha0v
  have hfst : exchBase (removeBit (removeBit a0 (max c t)) (min c t)) c t + 2 ^ c = a := by
    rw [hbase, add_two_pow_eq_xor c ha0c, ha0]
    exact Nat.xor_cancel_right _ _
  apply List.mem_map.mpr
  refine ⟨removeBit (removeBit a0 (max c t)) (min c t), List.mem_range.mpr hnlt, ?_⟩
  rw [exch_snd_eq_xor _ hct, hfst]

lemma cnot_getD_pair (sv : StateVector) {c t : ℕ} (hc : c < sv.qubit_width)
    (ht : t < sv.qubit_width) (hct : c ≠ t)
    (hlen : sv.bases.length = 2 ^ sv.qubit_width)
    {p : ℕ × ℕ} (hp : p ∈ find_exchangeable_rows sv.qubit_width c t) :
    (sv.cnot c t).bases.getD p.1 0 = sv.bases.getD p.2 0 ∧
    (sv.cnot c t).bases.getD p.2 0 = sv.bases.getD p.1 0 := by
  have hlaw : LawfulRows (find_exchangeable_rows sv.qubit_width c t) sv.bases.length := by
    rw [hlen]
    exact lawful_exchangeable_rows hc ht hct
  exact applyPairs_getD_of_mem (fun a b => (b, a)) _ sv.bases hlaw p hp

lemma cnot_getD_untouched (sv : StateVector) {c t : ℕ} (hc : c < sv.qubit_width)
    (ht : t < sv.qubit_width) (hct : c ≠ t) {i : ℕ} (hbit : i.testBit c = false) :
    (sv.cnot c t).bases.getD i 0 = sv.bases.getD i 0 := by
  show (applyPairs (fun a b => (b, a))
    (find_exchangeable_rows sv.qubit_width c t) sv.bases).getD i 0 = sv.bases.getD i 0
  apply applyPairs_getD_of_disjoint
  intro p hp
  rw [find_exchangeable_rows_eq hc ht hct] at hp
  obtain ⟨n, hn, rfl⟩ := List.mem_map.mp hp
  constructor
  · exact ne_of_testBit_ne (j := c) (by rw [hbit, exch_fst_testBit_c n hct]; simp)
  · exact ne_of_testBit_ne (j := c) (by rw [hbit, exch_snd_testBit_c n hct]; simp)

/-- C3: for width ≥ 2 and in-range distinct `c`, `t`, `cnot(c, t)` swaps
exactly the amplitude pairs whose basis indices have control bit 1 and differ
only in the target bit: the cached pairing function enumerates `2^(w−2)`
pairs, each pair has control bit set on both indices and its members differ
exactly in bit `t`, the two amplitudes of each pair are exchanged, every
index with control bit 0 keeps its amplitude, and every control-1 pair occurs
in the enumeration. -/
theorem C3_cnot_swaps (sv : StateVector) (c t : ℕ)
    (hw : 2 ≤ sv.qubit_width)
    (hc : c < sv.qubit_width) (ht : t < sv.qubit_width) (hct : c ≠ t)
    (hlen : sv.bases.length = 2 ^ sv.qubit_width) :
    (find_exchangeable_rows sv.qubit_width c t).length = 2 ^ (sv.qubit_width - 2) ∧
    (∀ p ∈ find_exchangeable_rows sv.qubit_width c t,
      p.1.testBit c = true ∧ p.2.testBit c = true ∧ p.2 = p.1 ^^^ 2 ^ t ∧
      (sv.cnot c t).bases.getD p.1 0 = sv.bases.getD p.2 0 ∧
      (sv.cnot c t).bases.getD p.2 0 = sv.bases.getD p.1 0) ∧
    (∀ i, i.testBit c = false → (sv.cnot c t).bases.getD i 0 = sv.bases.getD i 0) ∧
    (∀ a, a < 2 ^ sv.qubit_width → a.testBit c = true → a.testBit t = false →
      (a, a ^^^ 2 ^ t) ∈ find_exchangeable_rows sv.qubit_width c t) := by
  refine ⟨?_, ?_, ?_, ?_⟩
  · unfold find_exchangeable_rows
    rw [exp2_eq]
    simp
  · intro p hp
    have hswap := cnot_getD_pair sv hc ht hct hlen hp
    rw [find_exchangeable_rows_eq hc ht hct] at hp
    obtain ⟨n, hn, hpe⟩ := List.mem_map.mp hp
    refine ⟨?_, ?_, ?_, hswap.1, hswap.2⟩
    · rw [← hpe]
      exact exch_fst_testBit_c n hct
    · rw [← hpe]
      exact exch_snd_testBit_c n hct
    · rw [← hpe]
      exact exch_snd_eq_xor n hct
  · intro i hbit
    exact cnot_getD_untouched sv hc ht hct hbit
  · intro a ha hac hat
    exact exch_mem_of_bits hc ht hct ha hac hat

/-- Witness for C3 at the freshly created 2-qubit state vector, `c = 0`,
`t = 1`. -/
theorem C3_cnot_swaps_witness :
    2 ≤ (StateVector.new 2).qubit_width ∧
    0 < (StateVector.new 2).qubit_width ∧ 1 < (StateVector.new 2).qubit_width ∧
    (0 : ℕ) ≠ 1 ∧
    (StateVector.new 2).bases.length = 2 ^ (StateVector.new 2).qubit_width ∧
    ((find_exchangeable_rows (StateVector.new 2).qubit_width 0 1).length =
        2 ^ ((StateVector.new 2).qubit_width - 2) ∧
      (∀ p ∈ find_exchangeable_rows (StateVector.new 2).qubit_width 0 1,
        p.1.testBit 0 = true ∧ p.2.testBit 0 = true ∧ p.2 = p.1 ^^^ 2 ^ 1 ∧
        ((StateVector.new 2).cnot 0 1).bases.getD p.1 0 =
          (StateVector.new 2).bases.getD p.2 0 ∧
        ((StateVector.new 2).cnot 0 1).bases.getD p.2 0 =
          (StateVector.new 2).bases.getD p.1 0) ∧
      (∀ i, i.testBit 0 = false →
        ((StateVector.new 2).cnot 0 1).bases.getD i 0 =
          (StateVector.new 2).bases.getD i 0) ∧
      (∀ a, a < 2 ^ (StateVector.new 2).qubit_width → a.testBit 0 = true →
        a.testBit 1 = false →
        (a, a ^^^ 2 ^ 1) ∈ find_exchangeable_rows (StateVector.new 2).qubit_width 0 1)) := by
  have hw : 2 ≤ (StateVector.new 2).qubit_width := by
    show 2 ≤ 2
    norm_num
  have hc : 0 < (StateVector.new 2).qubit_width := by
    show 0 < 2
    norm_num
  have ht : 1 < (StateVector.new 2).qubit_width := by
    show 1 < 2
    norm_num
  have hlen : (StateVector.new 2).bases.length = 2 ^ (StateVector.new 2).qubit_width := by
    show (((List.replicate (exp2 2) (Complex.mk 0 0)).map (fun _ => (0 : ℂ))).set 0 _).length
      = 2 ^ 2
    simp [exp2_eq]
  exact ⟨hw, hc, ht, by norm_num, hlen,
    C3_cnot_swaps (StateVector.new 2) 0 1 hw hc ht (by norm_num) hlen⟩

/-- C4: applying `cnot(c, t)` twice restores the state vector exactly,
amplitude for amplitude. -/
theorem C4_cnot_involution (sv : StateVector) (c t : ℕ)
    (hc : c < sv.qubit_width) (ht : t < sv.qubit_width) (hct : c ≠ t)
    (hlen : sv.bases.length = 2 ^ sv.qubit_width) :
    (sv.cnot c t).cnot c t = sv := by
  have hlen1 : (sv.cnot c t).bases.length = 2 ^ (sv.cnot c t).qubit_width := by
    rw [cnot_length]
    exact hlen
  have htpow : (2 : ℕ) ^ t < 2 ^ sv.qubit_width := Nat.pow_lt_pow_right one_lt_two ht
  have hbases : ((sv.cnot c t).cnot c t).bases = sv.bases := by
    apply List.ext_getElem
    · rw [cnot_length, cnot_length]
    · intro j h1 h2
      rw [← List.getD_eq_getElem _ 0 h1, ← List.getD_eq_getElem _ 0 h2]
      have hj : j < 2 ^ sv.qubit_width := by
        rw [← hlen]
        exact h2
      by_cases hbc : j.testBit c = true
      · by_cases hbt : j.testBit t = true
        · -- j is the second member of its pair
          have halt : j ^^^ 2 ^ t < 2 ^ sv.qubit_width := Nat.xor_lt_two_pow hj htpow
          have hat : (j ^^^ 2 ^ t).testBit t = false := by
            rw [Nat.testBit_xor, hbt, Nat.testBit_two_pow]
            simp
          have hac : (j ^^^ 2 ^ t).testBit c = true := by
            rw [Nat.testBit_xor, hbc, Nat.testBit_two_pow]
            have hne : ¬ (t = c) := fun h => hct h.symm
            simp [hne]
          have hmem := exch_mem_of_bits hc ht hct halt hac hat
          have haxor : j ^^^ 2 ^ t ^^^ 2 ^ t = j := Nat.xor_cancel_right _ _
          have h1p := cnot_getD_pair sv hc ht hct hlen hmem
          have h2p := cnot_getD_pair (sv.cnot c t) hc ht hct hlen1 hmem
          simp only [haxor] at h1p h2p
          rw [h2p.2, h1p.1]
        · -- j is the first member of its pair
          have hbt2 : j.testBit t = false := by
            revert hbt
            cases j.testBit t <;> simp
          have hmem := exch_mem_of_bits hc ht hct hj hbc hbt2
          have h1p := cnot_getD_pair sv hc ht hct hlen hmem
          have h2p := cnot_getD_pair (sv.cnot c t) hc ht hct hlen1 hmem
          rw [h2p.1, h1p.2]
      · -- control bit clear: untouched twice
        have hbc2 : j.testBit c = false := by
          revert hbc
          cases j.testBit c <;> simp
        rw [cnot_getD_untouched (sv.cnot c t) hc ht hct hbc2,
          cnot_getD_untouched sv hc ht hct hbc2]
  have hstruct : ∀ x : StateVector, x.bases = sv.bases →
      x.qubit_width = sv.qubit_width → x = sv := by
    intro x hb hw
    cases x
    cases sv
    simp only at hb hw
    simp [hb, hw]
  exact hstruct _ hbases rfl

/-- Witness for C4 at the freshly created 2-qubit state vector, `c = 0`,
`t = 1`. -/
theorem C4_cnot_involution_witness :
    0 < (StateVector.new 2).qubit_width ∧ 1 < (StateVector.new 2).qubit_width ∧
    (0 : ℕ) ≠ 1 ∧
    (StateVector.new 2).bases.length = 2 ^ (StateVector.new 2).qubit_width ∧
    ((StateVector.new 2).cnot 0 1).cnot 0 1 = StateVector.new 2 := by
  have hc : 0 < (StateVector.new 2).qubit_width := by
    show 0 < 2
    norm_num
  have ht : 1 < (StateVector.new 2).qubit_width := by
    show 1 < 2
    norm_num
  have hlen : (StateVector.new 2).bases.length = 2 ^ (StateVector.new 2).qubit_width := by
    show (((List.replicate (exp2 2) (Complex.mk 0 0)).map (fun _ => (0 : ℂ))).set 0 _).length
      = 2 ^ 2
    simp [exp2_eq]
  exact ⟨hc, ht, by norm_num, hlen,
    C4_cnot_involution (StateVector.new 2) 0 1 hc ht (by norm_num) hlen⟩

/-! ### Histogram and joint-outcome statistics (`interpreter/computation.rs`) -/

/-- One classical-memory binding iterated by `HistogramBuilder::update`: the
Rust map is `HashMap<String, (u64, usize, usize)>`, read as register name and
`(observed value, bit width, declaration order)`. -/
structure MemEntry where
  name : String
  value : ℕ
  width : ℕ
  order : ℕ

/-- Source: `values.binary_search_by_key(&v, |(v, _)| *v)` followed by
`Err(idx) => insert(idx, (v, 1))` / `Ok(found) => count += 1`.  On the
sorted-by-value lists the builder maintains, the Rust binary-search contract
picks exactly this ordered position, modelled as ordered insertion. -/
def insertSortedValue : List (ℕ × ℕ) → ℕ → List (ℕ × ℕ)
  | [], v => [(v, 1)]
  | (x, cnt) :: rest, v =>
    if v < x then (v, 1) :: (x, cnt) :: rest
    else if v = x then (x, cnt + 1) :: rest
    else (x, cnt) :: insertSortedValue rest v

/-- Source: the histogram-updating body of `HistogramBuilder::update` for one
memory binding: insert `(Vec::new(), width)` when the register is new, then
binary-search-insert/increment the observed value.  The Rust
`HashMap<String, (Vec<(u64, usize)>, usize)>` is modelled as a function into
`Option`. -/
def updateRegister (h : String → Option (List (ℕ × ℕ) × ℕ)) (e : MemEntry) :
    String → Option (List (ℕ × ℕ) × ℕ) :=
  let current := match h e.name with
    | none => (([] : List (ℕ × ℕ)), e.width)
    | some entry => entry
  Function.update h e.name (some (insertSortedValue current.1 e.value, current.2))

/-- Source: Rust `format!("{:0width$b}", value)` — the binary digits of
`value` (most significant first, `"0"` for zero), left-padded with `'0'` to
`width` characters, never truncated. -/
def binaryPadded (value width : ℕ) : String :=
  let digits := Nat.toDigits 2 value
  String.mk (List.replicate (width - digits.length) '0' ++ digits)

/-- Source: `memory_vec.sort_by(|x, y| y.1.2.cmp(&x.1.2))` — stable sort by
descending declaration order. -/
def sortByDescOrder (memory : List MemEntry) : List MemEntry :=
  memory.mergeSort (fun x y => decide (y.order ≤ x.order))

/-- Source: the joint-key construction of `HistogramBuilder::update` — push
each register's zero-padded binary value onto the string, in sorted order. -/
def jointKey (memory : List MemEntry) : String :=
  (sortByDescOrder memory).foldl (fun binary e => binary ++ binaryPadded e.value e.width) ""

/-- Rust struct `HistogramBuilder { histogram, stats }`; the two `HashMap`s
are modelled as functions (`stats` with default count 0, matching
`entry(..).or_insert(0)`). -/
structure HistogramBuilder where
  histogram : String → Option (List (ℕ × ℕ) × ℕ)
  stats : String → ℕ

/-- Source: `HistogramBuilder::new()` — both maps start empty. -/
def HistogramBuilder.new : HistogramBuilder :=
  { histogram := fun _ => none, stats := fun _ => 0 }

/-- Source: `HistogramBuilder::update(memory)` — per-register histogram
insertion for every binding, then increment the joint-outcome key. -/
def HistogramBuilder.update (b : HistogramBuilder) (memory : List MemEntry) :
    HistogramBuilder :=
  { histogram := memory.foldl updateRegister b.histogram,
    stats := Function.update b.stats (jointKey memory) (b.stats (jointKey memory) + 1) }

/-- C9: each per-shot update increments exactly the joint-outcome key built
by concatenating every register's value as a binary string zero-padded to its
declared width, over the registers arranged in descending declaration order
(later-declared registers first). -/
theorem C9_joint_stats_key (b : HistogramBuilder) (memory : List MemEntry) :
    (∀ k, (b.update memory).stats k =
      if k = jointKey memory then b.stats k + 1 else b.stats k) ∧
    jointKey memory =
      (sortByDescOrder memory).foldl
        (fun binary e => binary ++ binaryPadded e.value e.width) "" ∧
    (sortByDescOrder memory).Perm memory ∧
    List.Pairwise (fun x y => y.order ≤ x.order) (sortByDescOrder memory) := by
  refine ⟨?_, rfl, ?_, ?_⟩
  · intro k
    by_cases hk : k = jointKey memory
    · subst hk
      rw [if_pos rfl]
      exact Function.update_same _ _ _
    · rw [if_neg hk]
      exact Function.update_noteq hk _ _
  · exact List.mergeSort_perm memory _
  · have hs := @List.sorted_mergeSort MemEntry
      (fun x y => decide (y.order ≤ x.order))
      (fun a b c hab hbc => by
        simp only [decide_eq_true_eq] at hab hbc ⊢
        omega)
      (fun a b => by
        simp only [Bool.or_eq_true, decide_eq_true_eq]
        omega)
      memory
    exact hs.imp (fun h => of_decide_eq_true h)

/-- Total count recorded for value `v` in a register's `(value, count)` list. -/
def filterCount (vals : List (ℕ × ℕ)) (v : ℕ) : ℕ :=
  ((vals.filter (fun p => p.1 == v)).map Prod.snd).sum

/-- `filterCount` through an optional register entry (0 for an absent one). -/
def optCount (o : Option (List (ℕ × ℕ) × ℕ)) (v : ℕ) : ℕ :=
  match o with
  | none => 0
  | some en => filterCount en.1 v

lemma filterCount_insert_self :
    ∀ (vals : List (ℕ × ℕ)) (v : ℕ),
      filterCount (insertSortedValue vals v) v = filterCount vals v + 1 := by
  intro vals
  induction vals with
  | nil => intro v; simp [insertSortedValue, filterCount]
  | cons p rest ih =>
      intro v
      obtain ⟨x, cnt⟩ := p
      unfold insertSortedValue
      by_cases h1 : v < x
      · rw [if_pos h1]
        have hxv : ¬ (x = v) := by omega
        simp [filterCount, List.filter_cons, hxv]
        omega
      · rw [if_neg h1]
        by_cases h2 : v = x
        · rw [if_pos h2]
          subst h2
          simp [filterCount, List.filter_cons]
          omega
        · rw [if_neg h2]
          have hxv : ¬ (x = v) := fun h => h2 h.symm
          have := ih v
          simp only [filterCount, List.filter_cons, hxv] at this ⊢
          simp only [beq_iff_eq, hxv, if_false]
          simpa [filterCount] using this

lemma filterCount_insert_ne :
    ∀ (vals : List (ℕ × ℕ)) (v0 v : ℕ), v ≠ v0 →
      filterCount (insertSortedValue vals v0) v = filterCount vals v := by
  intro vals
  induction vals with
  | nil =>
      intro v0 v hne
      have h : ¬ (v0 = v) := fun h => hne h.symm
      simp [insertSortedValue, filterCount, h]
  | cons p rest ih =>
      intro v0 v hne
      obtain ⟨x, cnt⟩ := p
      unfold insertSortedValue
      by_cases h1 : v0 < x
      · rw [if_pos h1]
        have h : ¬ (v0 = v) := fun h => hne h.symm
        simp [filterCount, List.filter_cons, h]
      · rw [if_neg h1]
        by_cases h2 : v0 = x
        · rw [if_pos h2]
          subst h2
          have h : ¬ (v0 = v) := fun h => hne h.symm
          simp [filterCount, List.filter_cons, h]
        · rw [if_neg h2]
          have := ih v0 v hne
          simp only [filterCount, List.filter_cons] at this ⊢
          by_cases hx : x = v
          · simp only [hx, if_true, beq_self_eq_true]
            simpa [filterCount] using this
          · simp only [beq_iff_eq, hx, if_false]
            simpa [filterCount] using this

lemma insertSortedValue_keys :
    ∀ (vals : List (ℕ × ℕ)) (v y : ℕ),
      y ∈ (insertSortedValue vals v).map Prod.fst → y ∈ vals.map Prod.fst ∨ y = v := by
  intro vals
  induction vals with
  | nil =>
      intro v y hy
      simp [insertSortedValue] at hy
      right
      exact hy
  | cons p rest ih =>
      intro v y hy
      obtain ⟨x, cnt⟩ := p
      unfold insertSortedValue at hy
      by_cases h1 : v < x
      · rw [if_pos h1] at hy
        simp only [List.map_cons, List.mem_cons] at hy
        rcases hy with rfl | rfl | hy
        · right; rfl
        · left; simp
        · left; simp [hy]
      · rw [if_neg h1] at hy
        by_cases h2 : v = x
        · rw [if_pos h2] at hy
          simp only [List.map_cons, List.mem_cons] at hy
          rcases hy with rfl | hy
          · left; simp
          · left; simp [hy]
        · rw [if_neg h2] at hy
          simp only [List.map_cons, List.mem_cons] at hy
          rcases hy with rfl | hy
          · left; simp
          · rcases ih v y hy with h | h
            · left; simp [h]
            · right; exact h

lemma insertSortedValue_sorted :
    ∀ (vals : List (ℕ × ℕ)) (v : ℕ),
      (vals.map Prod.fst).Pairwise (· < ·) →
      ((insertSortedValue vals v).map Prod.fst).Pairwise (· < ·) := by
  intro vals
  induction vals with
  | nil => intro v _; simp [insertSortedValue]
  | cons p rest ih =>
      intro v hs
      obtain ⟨x, cnt⟩ := p
      simp only [List.map_cons] at hs
      have hhead := (List.pairwise_cons.mp hs).1
      have htail := (List.pairwise_cons.mp hs).2
      unfold insertSortedValue
      by_cases h1 : v < x
      · rw [if_pos h1]
        simp only [List.map_cons]
        rw [List.pairwise_cons]
        constructor
        · intro y hy
          simp only [List.mem_cons] at hy
          rcases hy with rfl | hy
          · exact h1
          · exact lt_trans h1 (hhead y hy)
        · exact hs
      · rw [if_neg h1]
        by_cases h2 : v = x
        · rw [if_pos h2]
          simp only [List.map_cons]
          exact hs
        · rw [if_neg h2]
          have hxv : x < v := by omega
          simp only [List.map_cons]
          rw [List.pairwise_cons]
          constructor
          · intro y hy
            rcases insertSortedValue_keys rest v y hy with h | rfl
            · exact hhead y h
            · exact hxv
          · exact ih v htail

lemma updateRegister_ne (h : String → Option (List (ℕ × ℕ) × ℕ)) (e : MemEntry)
    {r : String} (hne : e.name ≠ r) : updateRegister h e r = h r := by
  unfold updateRegister
  exact Function.update_noteq (fun hc => hne hc.symm) _ _

lemma updateRegister_self (h : String → Option (List (ℕ × ℕ) × ℕ)) (e : MemEntry) :
    updateRegister h e e.name =
      some (insertSortedValue (match h e.name with
          | none => (([] : List (ℕ × ℕ)), e.width)
          | some entry => entry).1 e.value,
        (match h e.name with
          | none => (([] : List (ℕ × ℕ)), e.width)
          | some entry => entry).2) := by
  unfold updateRegister
  exact Function.update_same _ _ _

lemma foldl_updateRegister_ne :
    ∀ (u : List MemEntry) (h : String → Option (List (ℕ × ℕ) × ℕ)) (r : String),
      (∀ e ∈ u, e.name ≠ r) → (u.foldl updateRegister h) r = h r := by
  intro u
  induction u with
  | nil => intro h r _; rfl
  | cons e rest ih =>
      intro h r hne
      rw [List.foldl_cons, ih _ r (fun x hx => hne x (List.mem_cons_of_mem e hx)),
        updateRegister_ne h e (hne e (List.mem_cons_self e rest))]

lemma foldl_updateRegister_mem :
    ∀ (u : List MemEntry) (h : String → Option (List (ℕ × ℕ) × ℕ)) (e : MemEntry),
      e ∈ u → (u.map MemEntry.name).Nodup →
      (u.foldl updateRegister h) e.name = updateRegister h e e.name := by
  intro u
  induction u with
  | nil => intro h e he _; cases he
  | cons e' rest ih =>
      intro h e he hnodup
      rw [List.foldl_cons]
      have hnd : (∀ x ∈ rest, ¬ x.name = e'.name) ∧
          (rest.map MemEntry.name).Nodup := by
        simpa using hnodup
      rcases List.mem_cons.mp he with rfl | hrest
      · apply foldl_updateRegister_ne
        intro x hx hxname
        exact hnd.1 x hx hxname
      · have hne : e'.name ≠ e.name := fun hc => hnd.1 e hrest hc.symm
        rw [ih (updateRegister h e') e hrest hnd.2,
          updateRegister_self (updateRegister h e') e, updateRegister_self h e,
          updateRegister_ne h e' hne]

lemma any_value_of_nodup {u : List MemEntry} (hnodup : (u.map MemEntry.name).Nodup)
    {e : MemEntry} (he : e ∈ u) (v : ℕ) :
    (u.any (fun x => x.name == e.name && x.value == v)) = true ↔ e.value = v := by
  rw [List.any_eq_true]
  constructor
  · rintro ⟨x, hx, hxp⟩
    rw [Bool.and_eq_true, beq_iff_eq, beq_iff_eq] at hxp
    have hxe : x = e := List.inj_on_of_nodup_map hnodup hx he hxp.1
    rw [← hxe]
    exact hxp.2
  · intro hv
    exact ⟨e, he, by rw [Bool.and_eq_true, beq_iff_eq, beq_iff_eq]; exact ⟨rfl, hv⟩⟩

lemma any_false_of_no_name (u : List MemEntry) (r : String) (v : ℕ)
    (hno : ∀ e ∈ u, e.name ≠ r) :
    u.any (fun x => x.name == r && x.value == v) = false := by
  rw [← Bool.not_eq_true, List.any_eq_true]
  rintro ⟨x, hx, hxp⟩
  rw [Bool.and_eq_true, beq_iff_eq] at hxp
  exact hno x hx hxp.1

lemma optCount_updateRegister_self (hist : String → Option (List (ℕ × ℕ) × ℕ))
    (e : MemEntry) (v : ℕ) :
    optCount (updateRegister hist e e.name) v =
      optCount (hist e.name) v + (if e.value = v then 1 else 0) := by
  rw [updateRegister_self]
  by_cases hv : e.value = v
  · subst hv
    rw [if_pos rfl]
    cases hh : hist e.name with
    | none => simp [optCount, insertSortedValue, filterCount]
    | some en => simp [optCount, filterCount_insert_self]
  · rw [if_neg hv]
    have hvne : v ≠ e.value := fun h => hv h.symm
    cases hh : hist e.name with
    | none => simp [optCount, insertSortedValue, filterCount, hv]
    | some en => simp [optCount, filterCount_insert_ne _ _ _ hvne]

lemma sorted_updateRegister_self (hist : String → Option (List (ℕ × ℕ) × ℕ))
    (e : MemEntry)
    (hs : ∀ vals wd, hist e.name = some (vals, wd) → (vals.map Prod.fst).Pairwise (· < ·)) :
    ∀ vals wd, updateRegister hist e e.name = some (vals, wd) →
      (vals.map Prod.fst).Pairwise (· < ·) := by
  intro vals wd hval
  rw [updateRegister_self] at hval
  cases hh : hist e.name with
  | none =>
      rw [hh] at hval
      simp only [Option.some.injEq, Prod.mk.injEq] at hval
      rw [← hval.1]
      exact insertSortedValue_sorted [] e.value (by simp)
  | some en =>
      rw [hh] at hval
      simp only [Option.some.injEq, Prod.mk.injEq] at hval
      rw [← hval.1]
      exact insertSortedValue_sorted en.1 e.value (hs en.1 en.2 (by rw [hh]))

lemma foldl_update_histogram :
    ∀ (updates : List (List MemEntry)) (b : HistogramBuilder),
      (updates.foldl HistogramBuilder.update b).histogram =
        updates.foldl (fun h u => u.foldl updateRegister h) b.histogram := by
  intro updates
  induction updates with
  | nil => intro b; rfl
  | cons u rest ih =>
      intro b
      rw [List.foldl_cons, List.foldl_cons, ih]
      rfl

lemma histogram_fold_invariant :
    ∀ (updates : List (List MemEntry)) (hist : String → Option (List (ℕ × ℕ) × ℕ)),
      (∀ u ∈ updates, (u.map MemEntry.name).Nodup) →
      ∀ r : String,
        (∀ vals wd, hist r = some (vals, wd) → (vals.map Prod.fst).Pairwise (· < ·)) →
        ((∀ vals wd,
            (updates.foldl (fun h u => u.foldl updateRegister h) hist) r = some (vals, wd) →
            (vals.map Prod.fst).Pairwise (· < ·)) ∧
          ∀ v : ℕ,
            optCount ((updates.foldl (fun h u => u.foldl updateRegister h) hist) r) v =
              optCount (hist r) v +
                updates.countP (fun u => u.any (fun x => x.name == r && x.value == v))) := by
  intro updates
  induction updates with
  | nil =>
      intro hist _ r hsorted
      exact ⟨hsorted, fun v => by simp⟩
  | cons u rest ih =>
      intro hist hnodup r hsorted
      have hnu : (u.map MemEntry.name).Nodup := hnodup u (List.mem_cons_self u rest)
      have hrest : ∀ x ∈ rest, (x.map MemEntry.name).Nodup :=
        fun x hx => hnodup x (List.mem_cons_of_mem u hx)
      rw [List.foldl_cons]
      by_cases hex : ∃ e ∈ u, e.name = r
      · obtain ⟨e, he, hename⟩ := hex
        subst hename
        have hst : (u.foldl updateRegister hist) e.name = updateRegister hist e e.name :=
          foldl_updateRegister_mem u hist e he hnu
        have hsorted1 : ∀ vals wd, (u.foldl updateRegister hist) e.name = some (vals, wd) →
            (vals.map Prod.fst).Pairwise (· < ·) := by
          rw [hst]
          exact sorted_updateRegister_self hist e hsorted
        have hi := ih (u.foldl updateRegister hist) hrest e.name hsorted1
        refine ⟨hi.1, ?_⟩
        intro v
        rw [hi.2 v, hst, optCount_updateRegister_self hist e v, List.countP_cons]
        have hany : (u.any (fun x => x.name == e.name && x.value == v)) = true ↔ e.value = v :=
          any_value_of_nodup hnu he v
        by_cases hv : e.value = v
        · rw [if_pos hv, if_pos (hany.mpr hv)]
          omega
        · rw [if_neg hv]
          have hfalse : (u.any (fun x => x.name == e.name && x.value == v)) = false := by
            rw [← Bool.not_eq_true]
            exact fun hc => hv (hany.mp hc)
          rw [hfalse]
          simp only [Bool.false_eq_true, if_false]
          omega
      · push_neg at hex
        have hst : (u.foldl updateRegister hist) r = hist r :=
          foldl_updateRegister_ne u hist r hex
        have hsorted1 : ∀ vals wd, (u.foldl updateRegister hist) r = some (vals, wd) →
            (vals.map Prod.fst).Pairwise (· < ·) := by
          rw [hst]
          exact hsorted
        have hi := ih (u.foldl updateRegister hist) hrest r hsorted1
        refine ⟨hi.1, ?_⟩
        intro v
        rw [hi.2 v, hst, List.countP_cons]
        have hany : u.any (fun x => x.name == r && x.value == v) = false :=
          any_false_of_no_name u r v hex
        rw [hany]
        simp only [Bool.false_eq_true, if_false]
        omega

/-- C8: over any update sequence, each register's `(value, count)` list stays
strictly sorted ascending by value (so a new value enters at its ordered
position and a repeat increments in place), and the count stored for each
value equals the number of updates that reported that value for that
register. -/
theorem C8_histogram_register (updates : List (List MemEntry))
    (hnodup : ∀ u ∈ updates, (u.map MemEntry.name).Nodup)
    (r : String) (vals : List (ℕ × ℕ)) (wd : ℕ)
    (hval : (updates.foldl HistogramBuilder.update HistogramBuilder.new).histogram r =
      some (vals, wd)) :
    ((vals.map Prod.fst).Pairwise (· < ·)) ∧
    ∀ v : ℕ, ((vals.filter (fun p => p.1 == v)).map Prod.snd).sum =
      updates.countP (fun u => u.any (fun x => x.name == r && x.value == v)) := by
  rw [foldl_update_histogram] at hval
  have hinv := histogram_fold_invariant updates HistogramBuilder.new.histogram hnodup r
    (fun vals wd h => by simp [HistogramBuilder.new] at h)
  constructor
  · exact hinv.1 vals wd hval
  · intro v
    have hc := hinv.2 v
    rw [hval] at hc
    simpa [optCount, filterCount, HistogramBuilder.new] using hc

/-- Witness for C8 on the repository's own test data: updates
`{"a": (5,3,1)}` then `{"a": (3,3,1)}` give the ordered list
`[(3,1), (5,1)]` with the stated counts. -/
theorem C8_histogram_register_witness :
    (∀ u ∈ [[MemEntry.mk "a" 5 3 1], [MemEntry.mk "a" 3 3 1]],
      (u.map MemEntry.name).Nodup) ∧
    (([[MemEntry.mk "a" 5 3 1], [MemEntry.mk "a" 3 3 1]].foldl HistogramBuilder.update
        HistogramBuilder.new).histogram "a" = some ([(3, 1), (5, 1)], 3)) ∧
    ((([(3, 1), (5, 1)] : List (ℕ × ℕ)).map Prod.fst).Pairwise (· < ·) ∧
      ∀ v : ℕ,
        ((([(3, 1), (5, 1)] : List (ℕ × ℕ)).filter (fun p => p.1 == v)).map Prod.snd).sum =
          [[MemEntry.mk "a" 5 3 1], [MemEntry.mk "a" 3 3 1]].countP
            (fun u => u.any (fun x => x.name == "a" && x.value == v))) := by
  have h1 : ∀ u ∈ [[MemEntry.mk "a" 5 3 1], [MemEntry.mk "a" 3 3 1]],
      (u.map MemEntry.name).Nodup := by
    intro u hu
    rcases List.mem_cons.mp hu with rfl | hu2
    · simp
    · rcases List.mem_cons.mp hu2 with rfl | hu3
      · simp
      · cases hu3
  have h2 : ([[MemEntry.mk "a" 5 3 1], [MemEntry.mk "a" 3 3 1]].foldl
      HistogramBuilder.update HistogramBuilder.new).histogram "a" =
      some ([(3, 1), (5, 1)], 3) := by
    rfl
  exact ⟨h1, h2, C8_histogram_register _ h1 "a" _ _ h2⟩

end QasmSim
